import Mathlib

/-!
Verification of the bencode codec (the Go package `bencode`: an
`Unmarshal` decoder and a `Marshal` encoder) against its specification.

Modelling conventions (shallow embedding):

* A byte sequence is a `List Nat`; a Go byte holds the subrange 0..255,
  and no operation of the codec depends on that upper bound.  Byte
  constants appear as their ASCII codes: 105 is the letter i, 108 is l,
  100 is d, 101 is e, 58 is the colon, 45 is the minus sign, 43 is the
  plus sign, 48..57 are the decimal digits.
* The dynamically typed Go value (`any`) inspected by the codec becomes
  the closed sum `Value`; the constructor `Value.unsupported` stands for
  every Go value outside the four encodable variants (the encoder's
  `default` branch).
* A Go `map[string]any` becomes an association list
  `List (List Nat × Value)`.  A Go map has no observable iteration
  order; every place the codec observes order, it first sorts the keys,
  so the association-list model (with `mapInsert` for map assignment and
  `mapGet` for map indexing) is observationally faithful.
* Fallible Go functions return `Res`; the constructor `Res.panicked`
  records a Go runtime panic.  The decoder can reach
  `make([]byte, n)` with a negative `n`, and also with a valid positive
  `n` above the runtime's slice-allocation bound (`maxAlloc` below);
  in both cases Go panics (makeslice: len out of range) rather than
  returning an error, deterministically and before any allocation is
  attempted.
* The decoder's mutual recursion carries an explicit fuel argument so
  that Lean accepts it; `Res.outOfFuel` is the termination artifact.
  `Unmarshal` supplies fuel `2 * input length + 2`, which the round-trip
  lemmas show is never exhausted on the inputs they cover; the Go
  decoder itself has no such bound, which is exactly what claim C7 is
  about.
-/

namespace BencodeProof

/-- The closed sum of values the codec works with.  The Go source uses
`any` with runtime type switches over `int`, `string`, `[]any` and
`map[string]any`; `unsupported` models every other runtime type (the
`default` case of `marshalValue`). -/
inductive Value where
  | int (n : Int)
  | str (s : List Nat)
  | list (items : List Value)
  | dict (pairs : List (List Nat × Value))
  | unsupported

/-- The error values the decoder returns.  `eof` is `io.EOF` (readByte
at end of input, or `io.ReadFull` that read nothing), `unexpectedEOF` is
`io.ErrUnexpectedEOF` (`io.ReadFull` that read only part of the
request), `invalidInteger` is the wrapped error of
`fmt.Errorf("invalid integer value: ...")` carrying the offending digit
run, and `invalidStringLength` is the wrapped error of
`fmt.Errorf("invalid string length: ...")`. -/
inductive GoErr where
  | eof
  | unexpectedEOF
  | invalidInteger (s : List Nat)
  | invalidStringLength (s : List Nat)
deriving DecidableEq

/-- Truncation-kind errors: the two end-of-input errors produced by the
reader primitives, as opposed to the numeral syntax errors. -/
def GoErr.isTruncation : GoErr → Bool
  | .eof => true
  | .unexpectedEOF => true
  | _ => false

/-- Syntax-kind errors: the two errors wrapping a failed
`strconv.Atoi`. -/
def GoErr.isSyntaxError : GoErr → Bool
  | .invalidInteger _ => true
  | .invalidStringLength _ => true
  | _ => false

/-- Outcome of a decoding function: a value plus the unconsumed rest of
the input, an error return, a Go runtime panic, or exhaustion of the
Lean-side fuel (a modelling artifact, see the header comment). -/
inductive Res (α : Type) where
  | ok (a : α) (rest : List Nat)
  | err (e : GoErr)
  | panicked (n : Int)
  | outOfFuel

/-- One digit byte, ASCII 48..57. -/
def isDigit (c : Nat) : Bool := 48 ≤ c && c ≤ 57

/-- Accumulator loop of decimal parsing: consumes the whole list,
failing on the first non-digit. -/
def digitsAcc : List Nat → Nat → Option Nat
  | [], acc => some acc
  | c :: rest, acc => if isDigit c then digitsAcc rest (10 * acc + (c - 48)) else none

/-- Model of Go `strconv.Atoi` on a byte string: an optional sign
(`-` or `+`) followed by a nonempty digit run, with the int64 range
check.  `Atoi` accepts leading zeros ("03" parses as 3) and negative
zero ("-0" parses as 0); out-of-range numerals are errors. -/
def atoi (s : List Nat) : Option Int :=
  match s with
  | [] => none
  | c :: rest =>
    let digits := if c = 45 || c = 43 then rest else s
    if digits = [] then none
    else
      match digitsAcc digits 0 with
      | none => none
      | some n =>
        if c = 45 then
          if n ≤ 9223372036854775808 then some (-(n : Int)) else none
        else
          if n ≤ 9223372036854775807 then some ((n : Int)) else none

/-- The loop of `unmarshalInt`: read bytes until the terminator 101
(the letter e); `none` models hitting end of input first (readByte
returns `io.EOF`). -/
def readUntilE : List Nat → Option (List Nat × List Nat)
  | [] => none
  | c :: rest =>
    if c = 101 then some ([], rest)
    else
      match readUntilE rest with
      | none => none
      | some (s, r) => some (c :: s, r)

/-- Go `readUntilColon`: read bytes until 58 (the colon); `none` models
hitting end of input first. -/
def readUntilColon : List Nat → Option (List Nat × List Nat)
  | [] => none
  | c :: rest =>
    if c = 58 then some ([], rest)
    else
      match readUntilColon rest with
      | none => none
      | some (s, r) => some (c :: s, r)

/-- Go `unmarshalInt`: read the digit run up to the terminator, then
`strconv.Atoi` it; an `Atoi` failure becomes the wrapped
"invalid integer value" error. -/
def unmarshalInt (input : List Nat) : Res Int :=
  match readUntilE input with
  | none => .err .eof
  | some (buf, rest) =>
    match atoi buf with
    | none => .err (.invalidInteger buf)
    | some v => .ok v rest

/-- The largest byte-slice length the Go runtime will allocate on the
64-bit targets this program runs on (`runtime.maxAlloc`, with
`heapAddrBits = 48`): `make([]byte, n)` panics with
"makeslice: len out of range" whenever `n` is negative or exceeds this
bound, before attempting any allocation. -/
def maxAlloc : Nat := 281474976710656

/-- Go `unmarshalString`: read the length prefix up to the colon, `Atoi`
it, then take exactly that many raw bytes.  `make([]byte, length)`
panics at runtime (`Res.panicked`) when the length is negative or above
the runtime allocation bound `maxAlloc`; `io.ReadFull` on a short
remainder returns `io.EOF` when nothing could be read and
`io.ErrUnexpectedEOF` when only part could. -/
def unmarshalString (input : List Nat) : Res (List Nat) :=
  match readUntilColon input with
  | none => .err .eof
  | some (lengthStr, rest) =>
    match atoi lengthStr with
    | none => .err (.invalidStringLength lengthStr)
    | some length =>
      if length < 0 ∨ (maxAlloc : Int) < length then .panicked length
      else if (rest.length : Int) < length then
        if rest.length = 0 then .err .eof else .err .unexpectedEOF
      else .ok (rest.take length.toNat) (rest.drop length.toNat)

/-- Go map assignment `dict[k] = v` on the association-list model:
replace the binding in place if the key is present, append otherwise. -/
def mapInsert (k : List Nat) (v : Value) : List (List Nat × Value) → List (List Nat × Value)
  | [] => [(k, v)]
  | (k2, v2) :: rest => if k2 = k then (k, v) :: rest else (k2, v2) :: mapInsert k v rest

/-- Go map indexing `dict[k]` on the association-list model. -/
def mapGet : List (List Nat × Value) → List Nat → Option Value
  | [], _ => none
  | (k2, v) :: rest, k => if k2 = k then some v else mapGet rest k

mutual

/-- Go `unmarshalValue`: dispatch on the first byte (i, l, d select the
three structured parsers, anything else is pushed back and parsed as a
string).  The push-back (`unreadByte`) cannot fail on the
`bytes.Reader` that `Unmarshal` always supplies, so the model simply
passes the whole input to `unmarshalString`. -/
def unmarshalValue : Nat → List Nat → Res Value
  | 0, _ => .outOfFuel
  | _ + 1, [] => .err .eof
  | fuel + 1, c :: rest =>
    if c = 105 then
      match unmarshalInt rest with
      | .ok v r => .ok (.int v) r
      | .err e => .err e
      | .panicked n => .panicked n
      | .outOfFuel => .outOfFuel
    else if c = 108 then
      match unmarshalList fuel rest with
      | .ok items r => .ok (.list items) r
      | .err e => .err e
      | .panicked n => .panicked n
      | .outOfFuel => .outOfFuel
    else if c = 100 then
      match unmarshalDict fuel [] rest with
      | .ok pairs r => .ok (.dict pairs) r
      | .err e => .err e
      | .panicked n => .panicked n
      | .outOfFuel => .outOfFuel
    else
      match unmarshalString (c :: rest) with
      | .ok s r => .ok (.str s) r
      | .err e => .err e
      | .panicked n => .panicked n
      | .outOfFuel => .outOfFuel

/-- Go `unmarshalList`: repeatedly decode elements until the terminator
101; hitting end of input while looking for the next element returns
`io.EOF`.  The Go loop appends to a slice; the cons-recursion here
builds the same list. -/
def unmarshalList : Nat → List Nat → Res (List Value)
  | 0, _ => .outOfFuel
  | _ + 1, [] => .err .eof
  | fuel + 1, c :: rest =>
    if c = 101 then .ok [] rest
    else
      match unmarshalValue fuel (c :: rest) with
      | .ok v r =>
        match unmarshalList fuel r with
        | .ok vs r2 => .ok (v :: vs) r2
        | .err e => .err e
        | .panicked n => .panicked n
        | .outOfFuel => .outOfFuel
      | .err e => .err e
      | .panicked n => .panicked n
      | .outOfFuel => .outOfFuel

/-- Go `unmarshalDict`: repeatedly decode a string key then a value
until the terminator 101, assigning `dict[key] = value` each round (so
a repeated key overwrites the earlier binding); hitting end of input
while looking for the next entry returns `io.EOF`.  The accumulator is
the map under construction (Go starts from the empty map). -/
def unmarshalDict : Nat → List (List Nat × Value) → List Nat → Res (List (List Nat × Value))
  | 0, _, _ => .outOfFuel
  | _ + 1, _, [] => .err .eof
  | fuel + 1, dict, c :: rest =>
    if c = 101 then .ok dict rest
    else
      match unmarshalString (c :: rest) with
      | .ok key r1 =>
        match unmarshalValue fuel r1 with
        | .ok v r2 =>
          match unmarshalDict fuel (mapInsert key v dict) r2 with
          | .ok pairs r3 => .ok pairs r3
          | .err e => .err e
          | .panicked n => .panicked n
          | .outOfFuel => .outOfFuel
        | .err e => .err e
        | .panicked n => .panicked n
        | .outOfFuel => .outOfFuel
      | .err e => .err e
      | .panicked n => .panicked n
      | .outOfFuel => .outOfFuel

end

/-- Result of the exported `Unmarshal`: the Go function returns only the
value and the error, with no count of consumed bytes, so the rest of the
input is dropped here. -/
inductive URes where
  | ok (v : Value)
  | err (e : GoErr)
  | panicked (n : Int)
  | outOfFuel

/-- Go `Unmarshal`: wrap the data in a reader and run `unmarshalValue`.
The fuel `2 * data.length + 2` exceeds the recursion the input can
drive (each nesting level consumes input), and the round-trip lemmas
below never reach `outOfFuel`. -/
def Unmarshal (data : List Nat) : URes :=
  match unmarshalValue (2 * data.length + 2) data with
  | .ok v _ => .ok v
  | .err e => .err e
  | .panicked n => .panicked n
  | .outOfFuel => .outOfFuel

/-- Fuel-driven core of decimal formatting, emitting most significant
digit first; fuel `n + 1` (see `natToDigits`) always suffices. -/
def natToDigitsCore : Nat → Nat → List Nat → List Nat
  | 0, _, acc => acc
  | fuel + 1, n, acc =>
    if n < 10 then (48 + n % 10) :: acc
    else natToDigitsCore fuel (n / 10) ((48 + n % 10) :: acc)

/-- Decimal digits (ASCII) of a natural number, no leading zeros except
for the single digit of 0 itself. -/
def natToDigits (n : Nat) : List Nat := natToDigitsCore (n + 1) n []

/-- Model of Go `strconv.Itoa`: minimal decimal representation, a
leading 45 (minus sign) for negative values, never a plus sign, and 48
(the digit 0) for zero. -/
def itoa (v : Int) : List Nat :=
  if v < 0 then 45 :: natToDigits (-v).toNat else natToDigits v.toNat

/-- Byte-wise lexicographic order on byte strings, the order Go string
comparison (and hence `sort.Strings`) uses. -/
def bytesLe : List Nat → List Nat → Bool
  | [], _ => true
  | _ :: _, [] => false
  | a :: as, b :: bs => if a < b then true else if b < a then false else bytesLe as bs

/-- Insert a key into an already ascending list of keys. -/
def insertKey (k : List Nat) : List (List Nat) → List (List Nat)
  | [] => [k]
  | k2 :: rest => if bytesLe k k2 then k :: k2 :: rest else k2 :: insertKey k rest

/-- Ascending sort of a key list.  Go `sort.Strings` sorts ascending in
byte-wise lexicographic order; on the unique keys of a map the sorted
result is the unique ascending reordering, which this insertion sort
also computes. -/
def sortKeys (ks : List (List Nat)) : List (List Nat) := ks.foldr insertKey []

/-- A value looked up in an association list is structurally smaller
than the list (used for encoder termination). -/
theorem sizeOf_mapGet {pairs : List (List Nat × Value)} {k : List Nat} {v : Value}
    (h : mapGet pairs k = some v) : sizeOf v < sizeOf pairs := by
  induction pairs with
  | nil => simp [mapGet] at h
  | cons p rest ih =>
    obtain ⟨k2, v2⟩ := p
    simp only [mapGet] at h
    split at h
    · cases h
      simp
      omega
    · have := ih h
      simp
      omega

/-- The encode-side error: the `default` branch of `marshalValue`
(`fmt.Errorf("Unsupported type:...")`). -/
inductive MErr where
  | unsupportedType
deriving DecidableEq

/-- Go `marshalInt`: the byte 105 (i), the decimal digits, the byte 101
(e). -/
def marshalInt (v : Int) : List Nat := 105 :: (itoa v ++ [101])

/-- Go `marshalString`: decimal length, 58 (colon), then the raw
bytes. -/
def marshalString (s : List Nat) : List Nat := itoa (s.length : Int) ++ (58 :: s)

mutual

/-- Go `marshalValue`: type switch over the closed variant set; only a
value outside it produces an error. -/
def marshalValue : Value → Except MErr (List Nat)
  | .int n => .ok (marshalInt n)
  | .str s => .ok (marshalString s)
  | .list items => .ok (marshalList items)
  | .dict pairs => .ok (marshalDict pairs)
  | .unsupported => .error .unsupportedType
termination_by v => (sizeOf v, 0)
decreasing_by
  · apply Prod.Lex.left
    simp
  · apply Prod.Lex.left
    simp

/-- Go `marshalList`: write 108 (l), then the element loop, which on
success ends with 101 (e). -/
def marshalList (items : List Value) : List Nat := 108 :: marshalListItems items
termination_by (sizeOf items, 1)
decreasing_by
  apply Prod.Lex.right
  omega

/-- The loop body of Go `marshalList`: each element is encoded in turn;
if one fails, the loop returns at once WITHOUT writing the terminator
and WITHOUT propagating the error (the Go code discards it), so the
buffer is left truncated while the caller sees success. -/
def marshalListItems : List Value → List Nat
  | [] => [101]
  | v :: vs =>
    match marshalValue v with
    | .ok bs => bs ++ marshalListItems vs
    | .error _ => []
termination_by items => (sizeOf items, 0)
decreasing_by
  · apply Prod.Lex.left
    simp <;> omega
  · apply Prod.Lex.left
    simp <;> omega

/-- Go `marshalDict`: write 100 (d), collect the keys, sort them
ascending, then emit the entries in that order; on success the loop is
followed by 101 (e). -/
def marshalDict (dict : List (List Nat × Value)) : List Nat :=
  100 :: marshalDictEntries (sortKeys (dict.map Prod.fst)) dict
termination_by (sizeOf dict, (sortKeys (dict.map Prod.fst)).length + 1)
decreasing_by
  apply Prod.Lex.right
  omega

/-- The loop body of Go `marshalDict`: for each sorted key, write the
key as a string and then the looked-up value; as in `marshalListItems`,
a failing value (including the unreachable missing-key lookup, whose
Go `nil` would hit the `default` branch) aborts the loop silently,
leaving the key dangling, writing no terminator and reporting no
error. -/
def marshalDictEntries : List (List Nat) → List (List Nat × Value) → List Nat
  | [], _ => [101]
  | k :: ks, dict =>
    marshalString k ++
      (match hget : mapGet dict k with
       | some v =>
         match marshalValue v with
         | .ok bs => bs ++ marshalDictEntries ks dict
         | .error _ => []
       | none => [])
termination_by ks dict => (sizeOf dict, ks.length)
decreasing_by
  · have := sizeOf_mapGet hget
    apply Prod.Lex.left
    omega
  · apply Prod.Lex.right
    simp

end

/-- Go `Marshal`: run `marshalValue` into a fresh buffer and return its
bytes, or the error. -/
def Marshal (v : Value) : Except MErr (List Nat) :=
  match marshalValue v with
  | .ok bs => .ok bs
  | .error e => .error e

/-- The byte string `marshalValue` produces on success (defaulting to
`[]`, which `marshalValue` never returns on the supported variants). -/
def encB (v : Value) : List Nat :=
  match marshalValue v with
  | .ok bs => bs
  | .error _ => []

mutual

/-- Membership of a `Value` in the domain of Go values the encoder can
see: integers are 64-bit (`int`), string and key lengths do not exceed
the largest byte slice the 64-bit runtime can allocate (`maxAlloc`; a
Go string is materialized in memory, so a longer one cannot exist in a
running process), map keys are unique (a Go map cannot hold
duplicates), and only the four encodable variants occur. -/
def wfb : Value → Bool
  | .int n => decide (-9223372036854775808 ≤ n) && decide (n ≤ 9223372036854775807)
  | .str s => decide (s.length ≤ maxAlloc)
  | .list items => wfbList items
  | .dict pairs => decide ((pairs.map Prod.fst).Nodup) && wfbDict pairs
  | .unsupported => false
termination_by v => sizeOf v
decreasing_by all_goals (simp
  <;> omega)

/-- Pointwise `wfb` over list elements. -/
def wfbList : List Value → Bool
  | [] => true
  | v :: vs => wfb v && wfbList vs
termination_by items => sizeOf items
decreasing_by all_goals (simp
  <;> omega)

/-- Pointwise key-length bound and `wfb` over dictionary entries. -/
def wfbDict : List (List Nat × Value) → Bool
  | [] => true
  | (k, v) :: ps => decide (k.length ≤ maxAlloc) && wfb v && wfbDict ps
termination_by ps => sizeOf ps
decreasing_by all_goals (simp
  <;> omega)

end

mutual

/-- The canonical form a value assumes after one encode/decode round
trip: unchanged except that every dictionary is rebuilt with its entries
in ascending key order (the order the encoder emits and hence the order
the decoder re-inserts). -/
def canon : Value → Value
  | .int n => .int n
  | .str s => .str s
  | .list items => .list (canonList items)
  | .dict pairs => .dict (canonDict (sortKeys (pairs.map Prod.fst)) pairs)
  | .unsupported => .unsupported
termination_by v => (sizeOf v, 0)
decreasing_by
  · apply Prod.Lex.left
    simp
  · apply Prod.Lex.left
    simp

/-- Pointwise `canon` over list elements. -/
def canonList : List Value → List Value
  | [] => []
  | v :: vs => canon v :: canonList vs
termination_by items => (sizeOf items, 0)
decreasing_by
  · apply Prod.Lex.left
    simp
    omega
  · apply Prod.Lex.left
    simp

/-- Rebuild a dictionary by looking up the given keys in order (the
missing-key branch is unreachable when the keys come from the
dictionary itself). -/
def canonDict : List (List Nat) → List (List Nat × Value) → List (List Nat × Value)
  | [], _ => []
  | k :: ks, pairs =>
    match hget : mapGet pairs k with
    | some v => (k, canon v) :: canonDict ks pairs
    | none => canonDict ks pairs
termination_by ks pairs => (sizeOf pairs, ks.length)
decreasing_by
  · have := sizeOf_mapGet hget
    apply Prod.Lex.left
    omega
  · apply Prod.Lex.right
    simp
  · apply Prod.Lex.right
    simp

end

mutual

/-- Equality of values up to dictionary entry order: integers, byte
strings and the unsupported marker must coincide, lists must match
pointwise, and dictionaries must give equivalent lookup results on
every key (only the key/value associations matter, not the entry
order). -/
inductive Equiv : Value → Value → Prop
  | int (n : Int) : Equiv (.int n) (.int n)
  | str (s : List Nat) : Equiv (.str s) (.str s)
  | list {vs ws : List Value} : EquivList vs ws → Equiv (.list vs) (.list ws)
  | dict {d1 d2 : List (List Nat × Value)} :
      (∀ k, EquivOpt (mapGet d1 k) (mapGet d2 k)) →
      Equiv (.dict d1) (.dict d2)
  | unsupported : Equiv .unsupported .unsupported

/-- Pointwise `Equiv` on lists of values. -/
inductive EquivList : List Value → List Value → Prop
  | nil : EquivList [] []
  | cons {v w : Value} {vs ws : List Value} :
      Equiv v w → EquivList vs ws → EquivList (v :: vs) (w :: ws)

/-- Lift of `Equiv` to optional values (used to compare the lookup
results of two dictionaries on one key). -/
inductive EquivOpt : Option Value → Option Value → Prop
  | none : EquivOpt none none
  | some {v w : Value} : Equiv v w → EquivOpt (some v) (some w)

end

/-! ### Decimal formatting and parsing lemmas -/

theorem natToDigitsCore_eq (n : Nat) : ∀ fuel acc, n < fuel →
    natToDigitsCore fuel n acc = natToDigits n ++ acc := by
  induction n using Nat.strong_induction_on with
  | _ n ih =>
    intro fuel acc hfuel
    match fuel, hfuel with
    | f + 1, _ =>
      by_cases hn : n < 10
      · simp [natToDigitsCore, natToDigits, hn]
      · have hdiv : n / 10 < n := Nat.div_lt_self (by omega) (by omega)
        have h1 : natToDigitsCore (f + 1) n acc
            = natToDigitsCore f (n / 10) ((48 + n % 10) :: acc) := by
          simp [natToDigitsCore, hn]
        have h2 : natToDigits n = natToDigitsCore n (n / 10) [48 + n % 10] := by
          simp [natToDigits, natToDigitsCore, hn]
        rw [h1, h2, ih (n / 10) hdiv f _ (by omega), ih (n / 10) hdiv n _ (by omega)]
        simp

theorem natToDigits_small {n : Nat} (h : n < 10) : natToDigits n = [48 + n] := by
  have : n % 10 = n := Nat.mod_eq_of_lt h
  simp [natToDigits, natToDigitsCore, h, this]

theorem natToDigits_step {n : Nat} (h : 10 ≤ n) :
    natToDigits n = natToDigits (n / 10) ++ [48 + n % 10] := by
  have h2 : natToDigits n = natToDigitsCore n (n / 10) [48 + n % 10] := by
    simp [natToDigits, natToDigitsCore, show ¬ n < 10 by omega]
  rw [h2, natToDigitsCore_eq _ _ _ (Nat.div_lt_self (by omega) (by omega))]

theorem mem_natToDigits {n c : Nat} (h : c ∈ natToDigits n) : 48 ≤ c ∧ c ≤ 57 := by
  induction n using Nat.strong_induction_on with
  | _ n ih =>
    by_cases hn : n < 10
    · rw [natToDigits_small hn] at h
      simp at h
      omega
    · rw [natToDigits_step (by omega)] at h
      rcases List.mem_append.mp h with h1 | h1
      · exact ih (n / 10) (Nat.div_lt_self (by omega) (by omega)) h1
      · simp at h1
        have := Nat.mod_lt n (show 0 < 10 by omega)
        omega

theorem natToDigits_ne_nil (n : Nat) : natToDigits n ≠ [] := by
  by_cases hn : n < 10
  · rw [natToDigits_small hn]
    simp
  · rw [natToDigits_step (by omega)]
    simp

theorem digitsAcc_natToDigits (n : Nat) : ∀ rest acc,
    digitsAcc (natToDigits n ++ rest) acc
      = digitsAcc rest (acc * 10 ^ (natToDigits n).length + n) := by
  induction n using Nat.strong_induction_on with
  | _ n ih =>
    intro rest acc
    by_cases hn : n < 10
    · rw [natToDigits_small hn]
      have hd : isDigit (48 + n) = true := by
        simp [isDigit]
        omega
      simp [digitsAcc, hd]
      congr 1
      omega
    · rw [natToDigits_step (by omega)]
      have hdiv : n / 10 < n := Nat.div_lt_self (by omega) (by omega)
      rw [List.append_assoc, ih (n / 10) hdiv]
      have hd : isDigit (48 + n % 10) = true := by
        have := Nat.mod_lt n (show 0 < 10 by omega)
        simp [isDigit]
        omega
      simp [digitsAcc, hd, List.length_append]
      congr 1
      rw [pow_succ]
      generalize (10 : Nat) ^ (natToDigits (n / 10)).length = K
      have h1 : 10 * (acc * K + n / 10) + n % 10
          = acc * (K * 10) + (10 * (n / 10) + n % 10) := by ring
      rw [h1]
      congr 1
      omega

theorem digitsAcc_natToDigits_self (n : Nat) : digitsAcc (natToDigits n) 0 = some n := by
  have := digitsAcc_natToDigits n [] 0
  simpa [digitsAcc] using this

theorem atoi_digits {c : Nat} {t : List Nat} (hc1 : 48 ≤ c) (hc2 : c ≤ 57)
    {n : Nat} (hacc : digitsAcc (c :: t) 0 = some n)
    (h : n ≤ 9223372036854775807) : atoi (c :: t) = some ((n : Nat) : Int) := by
  have h45 : ¬ c = 45 := by omega
  have h43 : ¬ c = 43 := by omega
  simp [atoi, h45, h43, hacc, h]

theorem atoi_neg_digits {t : List Nat} {n : Nat} (hne : t ≠ [])
    (hacc : digitsAcc t 0 = some n) (h : n ≤ 9223372036854775808) :
    atoi (45 :: t) = some (-((n : Nat) : Int)) := by
  simp [atoi, hne, hacc, h]

theorem atoi_natToDigits {n : Nat} (h : n ≤ 9223372036854775807) :
    atoi (natToDigits n) = some ((n : Nat) : Int) := by
  obtain ⟨c, t, hct⟩ := List.exists_cons_of_ne_nil (natToDigits_ne_nil n)
  have hc : 48 ≤ c ∧ c ≤ 57 := mem_natToDigits (by rw [hct]; exact List.mem_cons_self c t)
  have hacc : digitsAcc (c :: t) 0 = some n := by
    rw [← hct]
    exact digitsAcc_natToDigits_self n
  rw [hct]
  exact atoi_digits hc.1 hc.2 hacc h

theorem itoa_ofNat (n : Nat) : itoa ((n : Nat) : Int) = natToDigits n := by
  simp [itoa]

theorem atoi_itoa {v : Int} (h1 : -9223372036854775808 ≤ v)
    (h2 : v ≤ 9223372036854775807) : atoi (itoa v) = some v := by
  by_cases hv : v < 0
  · have hrange : (-v).toNat ≤ 9223372036854775808 := by omega
    rw [show itoa v = 45 :: natToDigits (-v).toNat by simp [itoa, hv]]
    rw [atoi_neg_digits (natToDigits_ne_nil _) (digitsAcc_natToDigits_self _) hrange]
    congr 1
    omega
  · rw [show itoa v = natToDigits v.toNat by simp [itoa, hv]]
    rw [atoi_natToDigits (by omega)]
    congr 1
    omega

theorem mem_itoa {v : Int} {c : Nat} (h : c ∈ itoa v) :
    c = 45 ∨ (48 ≤ c ∧ c ≤ 57) := by
  by_cases hv : v < 0
  · simp only [itoa, if_pos hv] at h
    rcases List.mem_cons.mp h with h1 | h1
    · left; exact h1
    · right; exact mem_natToDigits h1
  · simp only [itoa, if_neg hv] at h
    right; exact mem_natToDigits h

theorem itoa_ne_nil (v : Int) : itoa v ≠ [] := by
  by_cases hv : v < 0
  · simp [itoa, hv]
  · simp [itoa, hv, natToDigits_ne_nil]

/-! ### Reader primitive lemmas -/

theorem readUntilE_emit {pre : List Nat} (rest : List Nat) (h : 101 ∉ pre) :
    readUntilE (pre ++ 101 :: rest) = some (pre, rest) := by
  induction pre with
  | nil => simp [readUntilE]
  | cons c cs ih =>
    have hc : ¬ c = 101 := fun hh => h (by simp [hh])
    have hcs : 101 ∉ cs := fun hh => h (by simp [hh])
    simp [readUntilE, hc, ih hcs]

theorem readUntilColon_emit {pre : List Nat} (rest : List Nat) (h : 58 ∉ pre) :
    readUntilColon (pre ++ 58 :: rest) = some (pre, rest) := by
  induction pre with
  | nil => simp [readUntilColon]
  | cons c cs ih =>
    have hc : ¬ c = 58 := fun hh => h (by simp [hh])
    have hcs : 58 ∉ cs := fun hh => h (by simp [hh])
    simp [readUntilColon, hc, ih hcs]

theorem unmarshalInt_itoa {n : Int} (h1 : -9223372036854775808 ≤ n)
    (h2 : n ≤ 9223372036854775807) (rest : List Nat) :
    unmarshalInt (itoa n ++ 101 :: rest) = .ok n rest := by
  have hmem : 101 ∉ itoa n := by
    intro hm
    rcases mem_itoa hm with h | h <;> omega
  simp [unmarshalInt, readUntilE_emit rest hmem, atoi_itoa h1 h2]

theorem unmarshalString_marshalString {s : List Nat}
    (h : s.length ≤ maxAlloc) (rest : List Nat) :
    unmarshalString (marshalString s ++ rest) = .ok s rest := by
  have hA : s.length ≤ 9223372036854775807 := by
    have hms : maxAlloc = 281474976710656 := rfl
    omega
  have hmem : 58 ∉ itoa (s.length : Int) := by
    intro hm
    rcases mem_itoa hm with h1 | h1 <;> omega
  have hshape : marshalString s ++ rest = itoa (s.length : Int) ++ 58 :: (s ++ rest) := by
    simp [marshalString]
  have hatoi : atoi (itoa (s.length : Int)) = some (s.length : Int) :=
    atoi_itoa (by omega) (by exact_mod_cast hA)
  have hnn : ¬ ((s.length : Int) < 0 ∨ (maxAlloc : Int) < (s.length : Int)) := by
    have hms : maxAlloc = 281474976710656 := rfl
    rw [hms] at h ⊢
    omega
  have hlt : ¬ (((s ++ rest).length : Int) < (s.length : Int)) := by
    simp [List.length_append]
  rw [hshape]
  simp only [unmarshalString, readUntilColon_emit _ hmem, hatoi]
  rw [if_neg hnn, if_neg hlt]
  simp [List.take_left, List.drop_left]

/-! ### Byte-string order and sorting lemmas -/

theorem bytesLe_total (a b : List Nat) : bytesLe a b = true ∨ bytesLe b a = true := by
  induction a generalizing b with
  | nil => left; simp [bytesLe]
  | cons x xs ih =>
    cases b with
    | nil => right; simp [bytesLe]
    | cons y ys =>
      by_cases h1 : x < y
      · left
        simp [bytesLe, h1]
      · by_cases h2 : y < x
        · right
          simp [bytesLe, h2]
        · rcases ih ys with h | h
          · left
            simp [bytesLe, h1, h2, h]
          · right
            simp [bytesLe, h1, h2, h]

theorem bytesLe_antisymm {a b : List Nat} (h1 : bytesLe a b = true)
    (h2 : bytesLe b a = true) : a = b := by
  induction a generalizing b with
  | nil =>
    cases b with
    | nil => rfl
    | cons y ys => simp [bytesLe] at h2
  | cons x xs ih =>
    cases b with
    | nil => simp [bytesLe] at h1
    | cons y ys =>
      by_cases hxy : x < y
      · simp [bytesLe, hxy, show ¬ y < x by omega] at h2
      · by_cases hyx : y < x
        · simp [bytesLe, hxy, hyx] at h1
        · have hx : x = y := by omega
          subst hx
          simp [bytesLe] at h1 h2
          rw [ih h1 h2]

theorem bytesLe_trans {a b c : List Nat} (h1 : bytesLe a b = true)
    (h2 : bytesLe b c = true) : bytesLe a c = true := by
  induction a generalizing b c with
  | nil => simp [bytesLe]
  | cons x xs ih =>
    cases b with
    | nil => simp [bytesLe] at h1
    | cons y ys =>
      cases c with
      | nil => simp [bytesLe] at h2
      | cons z zs =>
        by_cases hxy : x < y
        · by_cases hyz : y < z
          · simp [bytesLe, show x < z by omega]
          · by_cases hzy : z < y
            · simp [bytesLe, hyz, hzy] at h2
            · have : y = z := by omega
              subst this
              simp [bytesLe, hxy]
        · by_cases hyx : y < x
          · simp [bytesLe, hxy, hyx] at h1
          · have hx : x = y := by omega
            subst hx
            by_cases hxz : x < z
            · simp [bytesLe, hxz]
            · by_cases hzx : z < x
              · simp [bytesLe, hxz, hzx] at h2
              · have hz : x = z := by omega
                subst hz
                simp [bytesLe] at h1 h2 ⊢
                exact ih h1 h2

theorem insertKey_perm (k : List Nat) (l : List (List Nat)) :
    (insertKey k l).Perm (k :: l) := by
  induction l with
  | nil => simp [insertKey]
  | cons k2 rest ih =>
    by_cases h : bytesLe k k2 = true
    · simp [insertKey, h]
    · simp only [insertKey, if_neg h]
      exact (ih.cons k2).trans (List.Perm.swap k k2 rest)

theorem sortKeys_perm (l : List (List Nat)) : (sortKeys l).Perm l := by
  induction l with
  | nil => simp [sortKeys]
  | cons k rest ih =>
    have h1 : sortKeys (k :: rest) = insertKey k (sortKeys rest) := rfl
    rw [h1]
    exact (insertKey_perm k _).trans (ih.cons k)

theorem insertKey_sorted {l : List (List Nat)} (k : List Nat)
    (h : l.Pairwise (fun a b => bytesLe a b = true)) :
    (insertKey k l).Pairwise (fun a b => bytesLe a b = true) := by
  induction l with
  | nil => simp [insertKey]
  | cons k2 rest ih =>
    rcases List.pairwise_cons.mp h with ⟨hk2, hrest⟩
    by_cases hle : bytesLe k k2 = true
    · simp only [insertKey, if_pos hle]
      refine List.pairwise_cons.mpr ⟨?_, h⟩
      intro b hb
      rcases List.mem_cons.mp hb with hb1 | hb2
      · rw [hb1]
        exact hle
      · exact bytesLe_trans hle (hk2 b hb2)
    · simp only [insertKey, if_neg hle]
      refine List.pairwise_cons.mpr ⟨?_, ih hrest⟩
      intro b hb
      have hb3 := (insertKey_perm k rest).mem_iff.mp hb
      rcases List.mem_cons.mp hb3 with hb1 | hb4
      · rcases bytesLe_total k k2 with hh | hh
        · exact absurd hh hle
        · rw [hb1]
          exact hh
      · exact hk2 b hb4

theorem sortKeys_sorted (l : List (List Nat)) :
    (sortKeys l).Pairwise (fun a b => bytesLe a b = true) := by
  induction l with
  | nil => simp [sortKeys]
  | cons k rest ih => exact insertKey_sorted k ih

theorem sortKeys_eq_of_perm {l1 l2 : List (List Nat)} (h : l1.Perm l2) :
    sortKeys l1 = sortKeys l2 := by
  haveI : IsAntisymm (List Nat) (fun a b => bytesLe a b = true) :=
    ⟨fun a b ha hb => bytesLe_antisymm ha hb⟩
  exact List.eq_of_perm_of_sorted
    (((sortKeys_perm l1).trans h).trans (sortKeys_perm l2).symm)
    (sortKeys_sorted l1) (sortKeys_sorted l2)

theorem insertKey_of_le {k : List Nat} {l : List (List Nat)}
    (h : ∀ b ∈ l, bytesLe k b = true) : insertKey k l = k :: l := by
  cases l with
  | nil => simp [insertKey]
  | cons k2 rest => simp [insertKey, h k2 (by simp)]

theorem sortKeys_of_sorted {l : List (List Nat)}
    (h : l.Pairwise (fun a b => bytesLe a b = true)) : sortKeys l = l := by
  induction l with
  | nil => rfl
  | cons k rest ih =>
    rcases List.pairwise_cons.mp h with ⟨hk, hrest⟩
    have h1 : sortKeys (k :: rest) = insertKey k (sortKeys rest) := rfl
    rw [h1, ih hrest, insertKey_of_le hk]

theorem mem_sortKeys {k : List Nat} {l : List (List Nat)} :
    k ∈ sortKeys l ↔ k ∈ l := (sortKeys_perm l).mem_iff

/-! ### Association-list map lemmas -/

theorem mapGet_eq_none_iff {pairs : List (List Nat × Value)} {k : List Nat} :
    mapGet pairs k = none ↔ k ∉ pairs.map Prod.fst := by
  induction pairs with
  | nil => simp [mapGet]
  | cons p rest ih =>
    obtain ⟨k2, v⟩ := p
    by_cases h : k2 = k
    · subst h
      simp [mapGet]
    · have hne : ¬ k = k2 := fun hh => h hh.symm
      simp [mapGet, h, ih, hne]

theorem mapGet_isSome_of_mem {pairs : List (List Nat × Value)} {k : List Nat}
    (h : k ∈ pairs.map Prod.fst) : ∃ v, mapGet pairs k = some v := by
  cases hm : mapGet pairs k with
  | some v => exact ⟨v, rfl⟩
  | none => exact absurd h (mapGet_eq_none_iff.mp hm)

theorem mapGet_mem {pairs : List (List Nat × Value)} {k : List Nat} {v : Value}
    (h : mapGet pairs k = some v) : (k, v) ∈ pairs := by
  induction pairs with
  | nil => simp [mapGet] at h
  | cons p rest ih =>
    obtain ⟨k2, v2⟩ := p
    by_cases hk : k2 = k
    · subst hk
      simp [mapGet] at h
      rw [← h]
      exact List.mem_cons_self _ _
    · simp [mapGet, hk] at h
      exact List.mem_cons_of_mem _ (ih h)

theorem mapInsert_fresh {k : List Nat} {v : Value} {acc : List (List Nat × Value)}
    (h : k ∉ acc.map Prod.fst) : mapInsert k v acc = acc ++ [(k, v)] := by
  induction acc with
  | nil => rfl
  | cons p rest ih =>
    obtain ⟨k2, v2⟩ := p
    simp only [List.map_cons, List.mem_cons, not_or] at h
    have hne : ¬ k2 = k := fun hh => h.1 hh.symm
    simp [mapInsert, hne, ih h.2]

theorem mapGet_mapInsert (k k2 : List Nat) (v : Value) (d : List (List Nat × Value)) :
    mapGet (mapInsert k v d) k2 = if k = k2 then some v else mapGet d k2 := by
  induction d with
  | nil => simp [mapInsert, mapGet]
  | cons p rest ih =>
    obtain ⟨k3, v3⟩ := p
    by_cases h : k3 = k
    · subst h
      simp only [mapInsert, if_pos rfl]
      by_cases h2 : k3 = k2
      · subst h2
        simp [mapGet]
      · simp [mapGet, h2]
    · simp only [mapInsert, if_neg h]
      by_cases h2 : k3 = k2
      · subst h2
        have hne : ¬ k = k3 := fun hh => h hh.symm
        simp [mapGet, hne]
      · simp [mapGet, h2, ih]

theorem mapGet_of_perm {d1 d2 : List (List Nat × Value)} (h : d1.Perm d2) :
    (d1.map Prod.fst).Nodup → ∀ k, mapGet d1 k = mapGet d2 k := by
  induction h with
  | nil => exact fun _ _ => rfl
  | cons p h ih =>
    intro hnd k
    obtain ⟨k2, v⟩ := p
    simp only [List.map_cons, List.nodup_cons] at hnd
    simp [mapGet, ih hnd.2 k]
  | swap p q l =>
    intro hnd k
    obtain ⟨ka, va⟩ := p
    obtain ⟨kb, vb⟩ := q
    simp only [List.map_cons, List.nodup_cons, List.mem_cons, not_or] at hnd
    by_cases ha : ka = k
    · subst ha
      simp [mapGet, hnd.1.1]
    · simp [mapGet, ha]
  | trans h1 h2 ih1 ih2 =>
    intro hnd k
    have hnd2 := (h1.map Prod.fst).nodup hnd
    rw [ih1 hnd k, ih2 hnd2 k]

theorem foldl_mapInsert_fresh (f : Value → Value) :
    ∀ (entries acc : List (List Nat × Value)),
    (entries.map Prod.fst).Nodup →
    (∀ k ∈ entries.map Prod.fst, k ∉ acc.map Prod.fst) →
    entries.foldl (fun a p => mapInsert p.1 (f p.2) a) acc
      = acc ++ entries.map (fun p => (p.1, f p.2)) := by
  intro entries
  induction entries with
  | nil => simp
  | cons p ps ih =>
    intro acc hnd hdisj
    obtain ⟨k, v⟩ := p
    simp only [List.map_cons, List.nodup_cons] at hnd
    have hk : k ∉ acc.map Prod.fst := hdisj k (by simp)
    simp only [List.foldl_cons]
    rw [mapInsert_fresh hk]
    rw [ih _ hnd.2 ?_]
    · simp
    · intro k2 hk2
      simp only [List.map_append, List.map_cons, List.map_nil, List.mem_append,
        List.mem_cons, List.not_mem_nil, not_or]
      refine ⟨hdisj k2 (by simp [hk2]), ?_, by simp⟩
      intro hh
      exact hnd.1 (hh ▸ hk2)

/-! ### Encoder structure lemmas -/

/-- The entries the dictionary encoder emits: each key of the given list
paired with its looked-up value (keys that miss are skipped; they never
arise when the keys come from the dictionary). -/
def lookupEntries : List (List Nat) → List (List Nat × Value) → List (List Nat × Value)
  | [], _ => []
  | k :: ks, pairs =>
    match mapGet pairs k with
    | some v => (k, v) :: lookupEntries ks pairs
    | none => lookupEntries ks pairs

/-- The bytes a list of dictionary entries contributes to the encoding:
for each entry the key as a string followed by the encoded value. -/
def entriesBytes : List (List Nat × Value) → List Nat
  | [] => []
  | p :: ps => marshalString p.1 ++ (encB p.2 ++ entriesBytes ps)

theorem wfbList_mem {items : List Value} (h : wfbList items = true) {v : Value}
    (hv : v ∈ items) : wfb v = true := by
  induction items with
  | nil => simp at hv
  | cons x xs ih =>
    simp only [wfbList, Bool.and_eq_true] at h
    rcases List.mem_cons.mp hv with h1 | h1
    · rw [h1]
      exact h.1
    · exact ih h.2 h1

theorem wfbDict_mem {ps : List (List Nat × Value)} (h : wfbDict ps = true)
    {k : List Nat} {v : Value} (hv : (k, v) ∈ ps) :
    k.length ≤ maxAlloc ∧ wfb v = true := by
  induction ps with
  | nil => simp at hv
  | cons p rest ih =>
    obtain ⟨k2, v2⟩ := p
    simp only [wfbDict, Bool.and_eq_true, decide_eq_true_eq] at h
    rcases List.mem_cons.mp hv with h1 | h1
    · obtain ⟨hk, hv2⟩ := Prod.mk.injEq .. ▸ h1
      subst hk
      subst hv2
      exact ⟨h.1.1, h.1.2⟩
    · exact ih h.2 h1

theorem marshalValue_ok {v : Value} (h : wfb v = true) :
    marshalValue v = .ok (encB v) := by
  cases v with
  | unsupported => simp [wfb] at h
  | int n => simp [marshalValue, encB]
  | str s => simp [marshalValue, encB]
  | list items => simp [marshalValue, encB]
  | dict pairs => simp [marshalValue, encB]

theorem encB_ne_nil_head {v : Value} (h : wfb v = true) :
    ∃ c t, encB v = c :: t ∧ ¬ c = 101 := by
  cases v with
  | unsupported => simp [wfb] at h
  | int n =>
    refine ⟨105, itoa n ++ [101], ?_, by omega⟩
    simp [encB, marshalValue, marshalInt]
  | str s =>
    obtain ⟨c, t, hct⟩ := List.exists_cons_of_ne_nil (natToDigits_ne_nil s.length)
    have hc := mem_natToDigits (show c ∈ natToDigits s.length by rw [hct]; exact List.mem_cons_self c t)
    refine ⟨c, t ++ (58 :: s), ?_, by omega⟩
    simp [encB, marshalValue, marshalString, itoa_ofNat, hct]
  | list items =>
    refine ⟨108, marshalListItems items, ?_, by omega⟩
    simp [encB, marshalValue, marshalList]
  | dict pairs =>
    refine ⟨100, marshalDictEntries (sortKeys (pairs.map Prod.fst)) pairs, ?_, by omega⟩
    simp [encB, marshalValue, marshalDict]

theorem encB_length_pos {v : Value} (h : wfb v = true) : 1 ≤ (encB v).length := by
  obtain ⟨c, t, hct, _⟩ := encB_ne_nil_head h
  simp [hct]

theorem marshalString_head (k : List Nat) :
    ∃ c t, marshalString k = c :: t ∧ 48 ≤ c ∧ c ≤ 57 := by
  obtain ⟨c, t, hct⟩ := List.exists_cons_of_ne_nil (natToDigits_ne_nil k.length)
  have hc := mem_natToDigits (show c ∈ natToDigits k.length by rw [hct]; exact List.mem_cons_self c t)
  refine ⟨c, t ++ (58 :: k), ?_, hc.1, hc.2⟩
  simp [marshalString, itoa_ofNat, hct]

theorem marshalString_length_ge (k : List Nat) : 2 ≤ (marshalString k).length := by
  have h := List.length_pos.mpr (itoa_ne_nil ((k.length : Nat) : Int))
  simp only [marshalString, List.length_append, List.length_cons]
  omega

theorem marshalListItems_cons {v : Value} (vs : List Value) (h : wfb v = true) :
    marshalListItems (v :: vs) = encB v ++ marshalListItems vs := by
  simp [marshalListItems, marshalValue_ok h]

theorem marshalListItems_length_pos {items : List Value} (h : wfbList items = true) :
    1 ≤ (marshalListItems items).length := by
  cases items with
  | nil => simp [marshalListItems]
  | cons v vs =>
    simp only [wfbList, Bool.and_eq_true] at h
    rw [marshalListItems_cons vs h.1]
    have := encB_length_pos h.1
    simp [List.length_append]
    omega

theorem lookupEntries_keys {ks : List (List Nat)} {pairs : List (List Nat × Value)}
    (hfound : ∀ k ∈ ks, ∃ v, mapGet pairs k = some v) :
    (lookupEntries ks pairs).map Prod.fst = ks := by
  induction ks with
  | nil => simp [lookupEntries]
  | cons k ks ih =>
    obtain ⟨v, hv⟩ := hfound k (by simp)
    simp [lookupEntries, hv, ih fun k2 hk2 => hfound k2 (by simp [hk2])]

theorem lookupEntries_mem {ks : List (List Nat)} {pairs : List (List Nat × Value)}
    {p : List Nat × Value} (h : p ∈ lookupEntries ks pairs) :
    mapGet pairs p.1 = some p.2 := by
  induction ks with
  | nil => simp [lookupEntries] at h
  | cons k ks ih =>
    cases hv : mapGet pairs k with
    | some v =>
      rw [lookupEntries, hv] at h
      rcases List.mem_cons.mp h with h1 | h1
      · rw [h1]
        exact hv
      · exact ih h1
    | none =>
      rw [lookupEntries, hv] at h
      exact ih h

theorem canonDict_eq (ks : List (List Nat)) (pairs : List (List Nat × Value)) :
    canonDict ks pairs = (lookupEntries ks pairs).map (fun p => (p.1, canon p.2)) := by
  induction ks with
  | nil => simp [canonDict, lookupEntries]
  | cons k ks ih =>
    simp only [canonDict]
    split
    next v hget => simp [lookupEntries, hget, ih]
    next hget => simp [lookupEntries, hget, ih]

theorem marshalDictEntries_eq {ks : List (List Nat)} {pairs : List (List Nat × Value)}
    (hfound : ∀ k ∈ ks, ∃ v, mapGet pairs k = some v)
    (hwf : ∀ k v, mapGet pairs k = some v → wfb v = true) :
    marshalDictEntries ks pairs = entriesBytes (lookupEntries ks pairs) ++ [101] := by
  induction ks with
  | nil => simp [marshalDictEntries, lookupEntries, entriesBytes]
  | cons k ks ih =>
    obtain ⟨v, hv⟩ := hfound k (by simp)
    have hwfv := hwf k v hv
    have ih2 := ih fun k2 hk2 => hfound k2 (by simp [hk2])
    simp only [marshalDictEntries]
    split
    next v2 hget =>
      rw [hv] at hget
      injection hget with h
      subst h
      rw [marshalValue_ok hwfv]
      simp [lookupEntries, hv, entriesBytes, ih2]
    next hget =>
      simp [hv] at hget

/-! ### The main decode-of-encode lemmas -/

theorem unmarshalValue_int_ok (f : Nat) (rest : List Nat) {v : Int} {r : List Nat}
    (h : unmarshalInt rest = .ok v r) :
    unmarshalValue (f + 1) (105 :: rest) = .ok (.int v) r := by
  simp [unmarshalValue, h]

theorem unmarshalValue_list_ok (f : Nat) (rest : List Nat) {items : List Value}
    {r : List Nat} (h : unmarshalList f rest = .ok items r) :
    unmarshalValue (f + 1) (108 :: rest) = .ok (.list items) r := by
  simp [unmarshalValue, h]

theorem unmarshalValue_dict_ok (f : Nat) (rest : List Nat)
    {pairs : List (List Nat × Value)} {r : List Nat}
    (h : unmarshalDict f [] rest = .ok pairs r) :
    unmarshalValue (f + 1) (100 :: rest) = .ok (.dict pairs) r := by
  simp [unmarshalValue, h]

theorem unmarshalValue_str_ok (f : Nat) {c : Nat} (rest : List Nat)
    (h105 : ¬ c = 105) (h108 : ¬ c = 108) (h100 : ¬ c = 100)
    {s r : List Nat} (h : unmarshalString (c :: rest) = .ok s r) :
    unmarshalValue (f + 1) (c :: rest) = .ok (.str s) r := by
  simp [unmarshalValue, h105, h108, h100, h]

theorem unmarshalList_e (f : Nat) (rest : List Nat) :
    unmarshalList (f + 1) (101 :: rest) = .ok [] rest := by
  simp [unmarshalList]

theorem unmarshalList_cons_ok (f : Nat) {c : Nat} (rest : List Nat) (hc : ¬ c = 101)
    {v : Value} {r : List Nat} {vs : List Value} {r2 : List Nat}
    (h1 : unmarshalValue f (c :: rest) = .ok v r)
    (h2 : unmarshalList f r = .ok vs r2) :
    unmarshalList (f + 1) (c :: rest) = .ok (v :: vs) r2 := by
  simp [unmarshalList, hc, h1, h2]

theorem unmarshalDict_e (f : Nat) (acc : List (List Nat × Value)) (rest : List Nat) :
    unmarshalDict (f + 1) acc (101 :: rest) = .ok acc rest := by
  simp [unmarshalDict]

theorem unmarshalDict_cons_ok (f : Nat) (acc : List (List Nat × Value)) {c : Nat}
    (rest : List Nat) (hc : ¬ c = 101) {key : List Nat} {r1 : List Nat} {v : Value}
    {r2 : List Nat} {out : List (List Nat × Value)} {r3 : List Nat}
    (h1 : unmarshalString (c :: rest) = .ok key r1)
    (h2 : unmarshalValue f r1 = .ok v r2)
    (h3 : unmarshalDict f (mapInsert key v acc) r2 = .ok out r3) :
    unmarshalDict (f + 1) acc (c :: rest) = .ok out r3 := by
  simp [unmarshalDict, hc, h1, h2, h3]

theorem parse_marshal_all : ∀ fuel : Nat,
    (∀ v bs rest, wfb v = true → marshalValue v = .ok bs → 2 * bs.length + 1 ≤ fuel →
      unmarshalValue fuel (bs ++ rest) = .ok (canon v) rest) ∧
    (∀ items rest, wfbList items = true → 2 * (marshalListItems items).length ≤ fuel →
      unmarshalList fuel (marshalListItems items ++ rest) = .ok (canonList items) rest) ∧
    (∀ entries acc rest,
      (∀ p ∈ entries, wfb p.2 = true ∧ p.1.length ≤ maxAlloc) →
      2 * (entriesBytes entries).length + 2 ≤ fuel →
      unmarshalDict fuel acc (entriesBytes entries ++ 101 :: rest)
        = .ok (entries.foldl (fun a p => mapInsert p.1 (canon p.2) a) acc) rest) := by
  intro fuel
  induction fuel with
  | zero =>
    refine ⟨fun v bs rest _ _ hfuel => absurd hfuel (by omega),
      fun items rest hwf hfuel => ?_,
      fun entries acc rest _ hfuel => absurd hfuel (by omega)⟩
    have := marshalListItems_length_pos hwf
    omega
  | succ f ih =>
    refine ⟨fun v bs rest hwf henc hfuel => ?_,
      fun items rest hwf hfuel => ?_,
      fun entries acc rest hwf hfuel => ?_⟩
    · -- a single value
      cases v with
      | unsupported => simp [wfb] at hwf
      | int n =>
        simp only [marshalValue, Except.ok.injEq] at henc
        subst henc
        simp only [wfb, Bool.and_eq_true, decide_eq_true_eq] at hwf
        rw [show marshalInt n ++ rest = 105 :: (itoa n ++ 101 :: rest) by simp [marshalInt]]
        rw [unmarshalValue_int_ok f _ (unmarshalInt_itoa hwf.1 hwf.2 rest)]
        simp [canon]
      | str s =>
        simp only [marshalValue, Except.ok.injEq] at henc
        subst henc
        simp only [wfb, decide_eq_true_eq] at hwf
        obtain ⟨c, t, hct, hc1, hc2⟩ := marshalString_head s
        have hstr : unmarshalString (c :: (t ++ rest)) = .ok s rest := by
          rw [show c :: (t ++ rest) = marshalString s ++ rest by rw [hct]; simp]
          exact unmarshalString_marshalString hwf rest
        rw [show marshalString s ++ rest = c :: (t ++ rest) by rw [hct]; simp]
        rw [unmarshalValue_str_ok f _ (by omega) (by omega) (by omega) hstr]
        simp [canon]
      | list items =>
        simp only [marshalValue, Except.ok.injEq] at henc
        subst henc
        simp only [wfb] at hwf
        have hlen : (marshalList items).length = 1 + (marshalListItems items).length := by
          simp [marshalList]
          omega
        have hitems : unmarshalList f (marshalListItems items ++ rest)
            = .ok (canonList items) rest :=
          ih.2.1 items rest hwf (by omega)
        rw [show marshalList items ++ rest = 108 :: (marshalListItems items ++ rest) by
          simp [marshalList]]
        rw [unmarshalValue_list_ok f _ hitems]
        simp [canon]
      | dict pairs =>
        simp only [marshalValue, Except.ok.injEq] at henc
        simp only [wfb, Bool.and_eq_true, decide_eq_true_eq] at hwf
        have hfound : ∀ k ∈ sortKeys (pairs.map Prod.fst), ∃ w, mapGet pairs k = some w :=
          fun k hk => mapGet_isSome_of_mem (mem_sortKeys.mp hk)
        have hwfget : ∀ k w, mapGet pairs k = some w → wfb w = true :=
          fun k w hv => (wfbDict_mem hwf.2 (mapGet_mem hv)).2
        have hmde : marshalDictEntries (sortKeys (pairs.map Prod.fst)) pairs
            = entriesBytes (lookupEntries (sortKeys (pairs.map Prod.fst)) pairs)
              ++ [101] :=
          marshalDictEntries_eq hfound hwfget
        subst henc
        have hlen : (marshalDict pairs).length = 2
            + (entriesBytes (lookupEntries (sortKeys (pairs.map Prod.fst)) pairs)).length := by
          simp [marshalDict, hmde]
          omega
        have hentries : unmarshalDict f []
            (entriesBytes (lookupEntries (sortKeys (pairs.map Prod.fst)) pairs)
              ++ 101 :: rest)
            = .ok ((lookupEntries (sortKeys (pairs.map Prod.fst)) pairs).foldl
                (fun a p => mapInsert p.1 (canon p.2) a) []) rest :=
          ih.2.2 (lookupEntries (sortKeys (pairs.map Prod.fst)) pairs) [] rest
            (fun p hp => ⟨(wfbDict_mem hwf.2 (mapGet_mem (lookupEntries_mem hp))).2,
              (wfbDict_mem hwf.2 (mapGet_mem (lookupEntries_mem hp))).1⟩)
            (by omega)
        have hkeys : (lookupEntries (sortKeys (pairs.map Prod.fst)) pairs).map Prod.fst
            = sortKeys (pairs.map Prod.fst) := lookupEntries_keys hfound
        have hnd : ((lookupEntries (sortKeys (pairs.map Prod.fst)) pairs).map
            Prod.fst).Nodup := by
          rw [hkeys]
          exact (sortKeys_perm (pairs.map Prod.fst)).symm.nodup hwf.1
        rw [show marshalDict pairs ++ rest
            = 100 :: (entriesBytes (lookupEntries (sortKeys (pairs.map Prod.fst)) pairs)
                ++ 101 :: rest) by simp [marshalDict, hmde]]
        rw [unmarshalValue_dict_ok f _ hentries]
        rw [foldl_mapInsert_fresh canon _ [] hnd (by simp)]
        simp [canon, canonDict_eq]
    · -- the element loop of a list
      cases items with
      | nil =>
        rw [show marshalListItems [] ++ rest = 101 :: rest by simp [marshalListItems]]
        rw [unmarshalList_e]
        simp [canonList]
      | cons v vs =>
        simp only [wfbList, Bool.and_eq_true] at hwf
        have hcons := marshalListItems_cons vs hwf.1
        obtain ⟨c, t, hct, hc⟩ := encB_ne_nil_head hwf.1
        have hlen1 := encB_length_pos hwf.1
        have hlen2 := marshalListItems_length_pos hwf.2
        have hlencons : (marshalListItems (v :: vs)).length
            = (encB v).length + (marshalListItems vs).length := by
          rw [hcons]
          simp
        have h1 : unmarshalValue f (c :: (t ++ (marshalListItems vs ++ rest)))
            = .ok (canon v) (marshalListItems vs ++ rest) := by
          rw [show c :: (t ++ (marshalListItems vs ++ rest))
              = encB v ++ (marshalListItems vs ++ rest) by rw [hct]; simp]
          exact ih.1 v (encB v) (marshalListItems vs ++ rest) hwf.1
            (marshalValue_ok hwf.1) (by omega)
        have h2 : unmarshalList f (marshalListItems vs ++ rest)
            = .ok (canonList vs) rest :=
          ih.2.1 vs rest hwf.2 (by omega)
        rw [show marshalListItems (v :: vs) ++ rest
            = c :: (t ++ (marshalListItems vs ++ rest)) by rw [hcons, hct]; simp]
        rw [unmarshalList_cons_ok f _ hc h1 h2]
        simp [canonList]
    · -- the entry loop of a dictionary
      cases entries with
      | nil =>
        rw [show entriesBytes [] ++ 101 :: rest = 101 :: rest by simp [entriesBytes]]
        rw [unmarshalDict_e]
        simp
      | cons p es =>
        obtain ⟨k, v⟩ := p
        have hpwf := hwf (k, v) (by simp)
        have hwfv : wfb v = true := hpwf.1
        have hklen : k.length ≤ maxAlloc := hpwf.2
        obtain ⟨c, t, hct, hc1, hc2⟩ := marshalString_head k
        have hmlen := marshalString_length_ge k
        have hvlen := encB_length_pos hwfv
        have heb : entriesBytes ((k, v) :: es)
            = marshalString k ++ (encB v ++ entriesBytes es) := rfl
        have hleb : (entriesBytes ((k, v) :: es)).length
            = (marshalString k).length + ((encB v).length + (entriesBytes es).length) := by
          rw [heb]
          simp
        have hkey : unmarshalString (c :: (t ++ (encB v ++ (entriesBytes es
            ++ 101 :: rest))))
            = .ok k (encB v ++ (entriesBytes es ++ 101 :: rest)) := by
          rw [show c :: (t ++ (encB v ++ (entriesBytes es ++ 101 :: rest)))
              = marshalString k ++ (encB v ++ (entriesBytes es ++ 101 :: rest)) by
            rw [hct]; simp]
          exact unmarshalString_marshalString hklen _
        have h1 : unmarshalValue f (encB v ++ (entriesBytes es ++ 101 :: rest))
            = .ok (canon v) (entriesBytes es ++ 101 :: rest) :=
          ih.1 v (encB v) (entriesBytes es ++ 101 :: rest) hwfv
            (marshalValue_ok hwfv) (by omega)
        have h2 : unmarshalDict f (mapInsert k (canon v) acc)
            (entriesBytes es ++ 101 :: rest)
            = .ok (es.foldl (fun a p => mapInsert p.1 (canon p.2) a)
                (mapInsert k (canon v) acc)) rest :=
          ih.2.2 es (mapInsert k (canon v) acc) rest
            (fun q hq => hwf q (by simp [hq])) (by omega)
        rw [show entriesBytes ((k, v) :: es) ++ 101 :: rest
            = c :: (t ++ (encB v ++ (entriesBytes es ++ 101 :: rest))) by
          rw [heb, hct]; simp]
        rw [unmarshalDict_cons_ok f acc _ (by omega) hkey h1 h2]
        simp [List.foldl_cons]

theorem parse_marshal (v : Value) (bs rest : List Nat) (fuel : Nat)
    (hwf : wfb v = true) (henc : marshalValue v = .ok bs)
    (hfuel : 2 * bs.length + 1 ≤ fuel) :
    unmarshalValue fuel (bs ++ rest) = .ok (canon v) rest :=
  (parse_marshal_all fuel).1 v bs rest hwf henc hfuel

/-! ### Decoding truncated inputs -/

/-- Splitting a prefix of a concatenation: it either sits strictly
inside the first part, or it covers the whole first part and continues
as a prefix of the second. -/
theorem prefix_split {q a b : List Nat} (h : q <+: a ++ b) :
    (q <+: a ∧ q ≠ a) ∨ ∃ r, q = a ++ r ∧ r <+: b := by
  by_cases hlen : q.length ≤ a.length
  · by_cases heq : q = a
    · right
      exact ⟨[], by simp [heq], ⟨b, by simp⟩⟩
    · left
      exact ⟨List.prefix_of_prefix_length_le h (List.prefix_append a b) hlen, heq⟩
  · right
    have hap : a <+: q :=
      List.prefix_of_prefix_length_le (List.prefix_append a b) h (by omega)
    obtain ⟨r, hr⟩ := hap
    refine ⟨r, hr.symm, ?_⟩
    obtain ⟨t, ht⟩ := h
    rw [← hr, List.append_assoc] at ht
    exact ⟨t, List.append_cancel_left ht⟩

/-- readUntilE reaches end of input when the terminator is absent. -/
theorem readUntilE_none {q : List Nat} (h : 101 ∉ q) : readUntilE q = none := by
  induction q with
  | nil => rfl
  | cons c cs ih =>
    have hc : ¬ c = 101 := fun hh => h (by simp [hh])
    have hcs : 101 ∉ cs := fun hh => h (by simp [hh])
    simp [readUntilE, hc, ih hcs]

/-- readUntilColon reaches end of input when the colon is absent. -/
theorem readUntilColon_none {q : List Nat} (h : 58 ∉ q) : readUntilColon q = none := by
  induction q with
  | nil => rfl
  | cons c cs ih =>
    have hc : ¬ c = 58 := fun hh => h (by simp [hh])
    have hcs : 58 ∉ cs := fun hh => h (by simp [hh])
    simp [readUntilColon, hc, ih hcs]

theorem unmarshalValue_int_err (f : Nat) (rest : List Nat) {e : GoErr}
    (h : unmarshalInt rest = .err e) :
    unmarshalValue (f + 1) (105 :: rest) = .err e := by
  simp [unmarshalValue, h]

theorem unmarshalValue_list_err (f : Nat) (rest : List Nat) {e : GoErr}
    (h : unmarshalList f rest = .err e) :
    unmarshalValue (f + 1) (108 :: rest) = .err e := by
  simp [unmarshalValue, h]

theorem unmarshalValue_dict_err (f : Nat) (rest : List Nat) {e : GoErr}
    (h : unmarshalDict f [] rest = .err e) :
    unmarshalValue (f + 1) (100 :: rest) = .err e := by
  simp [unmarshalValue, h]

theorem unmarshalValue_str_err (f : Nat) {c : Nat} (rest : List Nat)
    (h105 : ¬ c = 105) (h108 : ¬ c = 108) (h100 : ¬ c = 100) {e : GoErr}
    (h : unmarshalString (c :: rest) = .err e) :
    unmarshalValue (f + 1) (c :: rest) = .err e := by
  simp [unmarshalValue, h105, h108, h100, h]

theorem unmarshalList_cons_err1 (f : Nat) {c : Nat} (rest : List Nat) (hc : ¬ c = 101)
    {e : GoErr} (h1 : unmarshalValue f (c :: rest) = .err e) :
    unmarshalList (f + 1) (c :: rest) = .err e := by
  simp [unmarshalList, hc, h1]

theorem unmarshalList_cons_err2 (f : Nat) {c : Nat} (rest : List Nat) (hc : ¬ c = 101)
    {v : Value} {r : List Nat} {e : GoErr}
    (h1 : unmarshalValue f (c :: rest) = .ok v r)
    (h2 : unmarshalList f r = .err e) :
    unmarshalList (f + 1) (c :: rest) = .err e := by
  simp [unmarshalList, hc, h1, h2]

theorem unmarshalDict_cons_err1 (f : Nat) (acc : List (List Nat × Value)) {c : Nat}
    (rest : List Nat) (hc : ¬ c = 101) {e : GoErr}
    (h1 : unmarshalString (c :: rest) = .err e) :
    unmarshalDict (f + 1) acc (c :: rest) = .err e := by
  simp [unmarshalDict, hc, h1]

theorem unmarshalDict_cons_err2 (f : Nat) (acc : List (List Nat × Value)) {c : Nat}
    (rest : List Nat) (hc : ¬ c = 101) {key : List Nat} {r1 : List Nat} {e : GoErr}
    (h1 : unmarshalString (c :: rest) = .ok key r1)
    (h2 : unmarshalValue f r1 = .err e) :
    unmarshalDict (f + 1) acc (c :: rest) = .err e := by
  simp [unmarshalDict, hc, h1, h2]

theorem unmarshalDict_cons_err3 (f : Nat) (acc : List (List Nat × Value)) {c : Nat}
    (rest : List Nat) (hc : ¬ c = 101) {key : List Nat} {r1 : List Nat} {v : Value}
    {r2 : List Nat} {e : GoErr}
    (h1 : unmarshalString (c :: rest) = .ok key r1)
    (h2 : unmarshalValue f r1 = .ok v r2)
    (h3 : unmarshalDict f (mapInsert key v acc) r2 = .err e) :
    unmarshalDict (f + 1) acc (c :: rest) = .err e := by
  simp [unmarshalDict, hc, h1, h2, h3]

/-- A proper prefix of an integer token's body (the digit run plus the
terminator) never contains the terminator, so `unmarshalInt` reaches
end of input. -/
theorem unmarshalInt_truncated {n : Int} {q : List Nat}
    (hpre : q <+: itoa n ++ [101]) (hne : q ≠ itoa n ++ [101]) :
    unmarshalInt q = .err .eof := by
  have h101 : 101 ∉ q := by
    rcases prefix_split hpre with ⟨h1, _⟩ | ⟨r, hq, hr⟩
    · intro hm
      rcases mem_itoa (h1.subset hm) with hh | hh <;> omega
    · cases r with
      | nil =>
        rw [hq]
        simp only [List.append_nil]
        intro hm
        rcases mem_itoa hm with hh | hh <;> omega
      | cons c t =>
        exfalso
        obtain ⟨hc, ht⟩ := List.cons_prefix_cons.mp hr
        have ht2 : t = [] := List.prefix_nil.mp ht
        apply hne
        rw [hq, hc, ht2]
  simp [unmarshalInt, readUntilE_none h101]

/-- A proper prefix of an encoded string fails with one of the two
reader errors: no colon present yet gives io.EOF, a partially present
payload gives io.EOF (nothing readable) or io.ErrUnexpectedEOF
(partial read). -/
theorem unmarshalString_truncated {s : List Nat} (hlen : s.length ≤ maxAlloc)
    {q : List Nat} (hpre : q <+: marshalString s) (hne : q ≠ marshalString s) :
    unmarshalString q = .err .eof ∨ unmarshalString q = .err .unexpectedEOF := by
  have hmem : 58 ∉ itoa (s.length : Int) := by
    intro hm
    rcases mem_itoa hm with h1 | h1 <;> omega
  have hms : marshalString s = itoa (s.length : Int) ++ (58 :: s) := by
    simp [marshalString]
  rw [hms] at hpre hne
  rcases prefix_split hpre with ⟨h1, _⟩ | ⟨r, hq, hr⟩
  · left
    have h58 : 58 ∉ q := fun hm => hmem (h1.subset hm)
    simp [unmarshalString, readUntilColon_none h58]
  · cases r with
    | nil =>
      left
      have h58 : 58 ∉ q := by
        rw [hq]
        simp only [List.append_nil]
        exact hmem
      simp [unmarshalString, readUntilColon_none h58]
    | cons c t =>
      obtain ⟨hc, ht⟩ := List.cons_prefix_cons.mp hr
      subst hc
      have htne : t ≠ s := by
        intro hts
        apply hne
        rw [hq, hts]
      have htlen : t.length < s.length := by
        have hle := ht.length_le
        rcases Nat.lt_or_ge t.length s.length with hlt | hge
        · exact hlt
        · exact absurd (ht.eq_of_length (by omega)) htne
      have hA : s.length ≤ 9223372036854775807 := by
        have hmsa : maxAlloc = 281474976710656 := rfl
        omega
      have hatoi : atoi (itoa (s.length : Int)) = some (s.length : Int) :=
        atoi_itoa (by omega) (by exact_mod_cast hA)
      have hnn : ¬ ((s.length : Int) < 0 ∨ (maxAlloc : Int) < (s.length : Int)) := by
        have hmsa : maxAlloc = 281474976710656 := rfl
        rw [hmsa] at hlen ⊢
        omega
      have hlt : ((t.length : Int) < (s.length : Int)) := by exact_mod_cast htlen
      by_cases ht0 : t.length = 0
      · left
        rw [hq]
        simp only [unmarshalString, readUntilColon_emit t hmem, hatoi]
        rw [if_neg hnn, if_pos hlt, if_pos ht0]
      · right
        rw [hq]
        simp only [unmarshalString, readUntilColon_emit t hmem, hatoi]
        rw [if_neg hnn, if_pos hlt, if_neg ht0]

/-- Decoding any proper prefix of a well-formed encoding fails with one
of the two reader errors io.EOF / io.ErrUnexpectedEOF — never a
success, a syntax error, a panic or fuel exhaustion — with the same
fuel accounting as `parse_marshal_all`: the first conjunct handles one
value, the second the element loop of a list, the third the entry loop
of a dictionary. -/
theorem truncation_all : ∀ fuel : Nat,
    (∀ v bs p, wfb v = true → marshalValue v = .ok bs → p <+: bs → p ≠ bs →
      2 * p.length + 1 ≤ fuel →
      unmarshalValue fuel p = .err .eof ∨ unmarshalValue fuel p = .err .unexpectedEOF) ∧
    (∀ items q, wfbList items = true → q <+: marshalListItems items →
      q ≠ marshalListItems items → 2 * q.length + 2 ≤ fuel →
      unmarshalList fuel q = .err .eof ∨ unmarshalList fuel q = .err .unexpectedEOF) ∧
    (∀ entries acc q, (∀ p ∈ entries, wfb p.2 = true ∧ p.1.length ≤ maxAlloc) →
      q <+: entriesBytes entries ++ [101] → q ≠ entriesBytes entries ++ [101] →
      2 * q.length + 2 ≤ fuel →
      unmarshalDict fuel acc q = .err .eof ∨
        unmarshalDict fuel acc q = .err .unexpectedEOF) := by
  intro fuel
  induction fuel with
  | zero =>
    exact ⟨fun v bs p _ _ _ _ hfuel => absurd hfuel (by omega),
      fun items q _ _ _ hfuel => absurd hfuel (by omega),
      fun entries acc q _ _ _ hfuel => absurd hfuel (by omega)⟩
  | succ f ih =>
    refine ⟨fun v bs p hwf henc hpre hne hfuel => ?_,
      fun items q hwf hpre hne hfuel => ?_,
      fun entries acc q hwf hpre hne hfuel => ?_⟩
    · -- a single truncated value
      cases v with
      | unsupported => simp [wfb] at hwf
      | int n =>
        simp only [marshalValue, Except.ok.injEq] at henc
        subst henc
        cases p with
        | nil =>
          left
          simp [unmarshalValue]
        | cons c q2 =>
          have hsh : marshalInt n = 105 :: (itoa n ++ [101]) := rfl
          rw [hsh] at hpre hne
          obtain ⟨hc, hq2⟩ := List.cons_prefix_cons.mp hpre
          subst hc
          have hq2ne : q2 ≠ itoa n ++ [101] := fun hh => hne (by rw [hh])
          left
          exact unmarshalValue_int_err f q2 (unmarshalInt_truncated hq2 hq2ne)
      | str s =>
        simp only [marshalValue, Except.ok.injEq] at henc
        subst henc
        simp only [wfb, decide_eq_true_eq] at hwf
        cases p with
        | nil =>
          left
          simp [unmarshalValue]
        | cons c q2 =>
          obtain ⟨c0, t0, hct, hc1, hc2⟩ := marshalString_head s
          have hc : c = c0 := by
            rw [hct] at hpre
            exact (List.cons_prefix_cons.mp hpre).1
          subst hc
          rcases unmarshalString_truncated hwf hpre hne with h | h
          · left
            exact unmarshalValue_str_err f q2 (by omega) (by omega) (by omega) h
          · right
            exact unmarshalValue_str_err f q2 (by omega) (by omega) (by omega) h
      | list items =>
        simp only [marshalValue, Except.ok.injEq] at henc
        subst henc
        simp only [wfb] at hwf
        cases p with
        | nil =>
          left
          simp [unmarshalValue]
        | cons c q =>
          have hsh : marshalList items = 108 :: marshalListItems items := by
            simp [marshalList]
          rw [hsh] at hpre hne
          obtain ⟨hc, hq⟩ := List.cons_prefix_cons.mp hpre
          subst hc
          have hqne : q ≠ marshalListItems items := fun hh => hne (by rw [hh])
          rcases ih.2.1 items q hwf hq hqne (by simp at hfuel; omega) with h | h
          · left
            exact unmarshalValue_list_err f q h
          · right
            exact unmarshalValue_list_err f q h
      | dict pairs =>
        simp only [marshalValue, Except.ok.injEq] at henc
        simp only [wfb, Bool.and_eq_true, decide_eq_true_eq] at hwf
        have hfound : ∀ k ∈ sortKeys (pairs.map Prod.fst), ∃ w, mapGet pairs k = some w :=
          fun k hk => mapGet_isSome_of_mem (mem_sortKeys.mp hk)
        have hwfget : ∀ k w, mapGet pairs k = some w → wfb w = true :=
          fun k w hv => (wfbDict_mem hwf.2 (mapGet_mem hv)).2
        have hmde : marshalDictEntries (sortKeys (pairs.map Prod.fst)) pairs
            = entriesBytes (lookupEntries (sortKeys (pairs.map Prod.fst)) pairs)
              ++ [101] :=
          marshalDictEntries_eq hfound hwfget
        subst henc
        cases p with
        | nil =>
          left
          simp [unmarshalValue]
        | cons c q =>
          have hsh : marshalDict pairs
              = 100 :: (entriesBytes (lookupEntries (sortKeys (pairs.map Prod.fst)) pairs)
                  ++ [101]) := by
            simp [marshalDict, hmde]
          rw [hsh] at hpre hne
          obtain ⟨hc, hq⟩ := List.cons_prefix_cons.mp hpre
          subst hc
          have hqne : q ≠ entriesBytes (lookupEntries (sortKeys (pairs.map Prod.fst)) pairs)
              ++ [101] := fun hh => hne (by rw [hh])
          rcases ih.2.2 (lookupEntries (sortKeys (pairs.map Prod.fst)) pairs) [] q
            (fun p hp => ⟨(wfbDict_mem hwf.2 (mapGet_mem (lookupEntries_mem hp))).2,
              (wfbDict_mem hwf.2 (mapGet_mem (lookupEntries_mem hp))).1⟩)
            hq hqne (by simp at hfuel; omega) with h | h
          · left
            exact unmarshalValue_dict_err f q h
          · right
            exact unmarshalValue_dict_err f q h
    · -- the element loop of a list, truncated
      cases items with
      | nil =>
        have hsh : marshalListItems ([] : List Value) = [101] := by
          simp [marshalListItems]
        rw [hsh] at hpre hne
        have hq : q = [] := by
          cases q with
          | nil => rfl
          | cons c t =>
            obtain ⟨hc, ht⟩ := List.cons_prefix_cons.mp hpre
            have ht2 : t = [] := List.prefix_nil.mp ht
            exact absurd (by rw [hc, ht2]) hne
        subst hq
        left
        simp [unmarshalList]
      | cons v vs =>
        simp only [wfbList, Bool.and_eq_true] at hwf
        have hcons := marshalListItems_cons vs hwf.1
        rw [hcons] at hpre hne
        obtain ⟨c0, t0, hct, hc0⟩ := encB_ne_nil_head hwf.1
        have hvlen := encB_length_pos hwf.1
        rcases prefix_split hpre with ⟨h1, h2⟩ | ⟨r, hqr, hr⟩
        · -- truncation inside the first element
          cases q with
          | nil =>
            left
            simp [unmarshalList]
          | cons c q2 =>
            have hc : c = c0 := by
              rw [hct] at h1
              exact (List.cons_prefix_cons.mp h1).1
            subst hc
            rcases ih.1 v (encB v) (c :: q2) hwf.1 (marshalValue_ok hwf.1) h1 h2
              (by simp at hfuel ⊢; omega) with h | h
            · left
              exact unmarshalList_cons_err1 f q2 hc0 h
            · right
              exact unmarshalList_cons_err1 f q2 hc0 h
        · -- first element complete, truncation further on
          have hrne : r ≠ marshalListItems vs := by
            intro hh
            apply hne
            rw [hqr, hh]
          have hql : q.length = (encB v).length + r.length := by
            rw [hqr]
            simp
          have hok : unmarshalValue f (encB v ++ r) = .ok (canon v) r :=
            (parse_marshal_all f).1 v (encB v) r hwf.1 (marshalValue_ok hwf.1)
              (by omega)
          have hq2 : q = c0 :: (t0 ++ r) := by
            rw [hqr, hct]
            simp
          have hok2 : unmarshalValue f (c0 :: (t0 ++ r)) = .ok (canon v) r := by
            rw [show c0 :: (t0 ++ r) = encB v ++ r by rw [hct]; simp]
            exact hok
          rw [hq2]
          rcases ih.2.1 vs r hwf.2 hr hrne (by omega) with h | h
          · left
            exact unmarshalList_cons_err2 f (t0 ++ r) hc0 hok2 h
          · right
            exact unmarshalList_cons_err2 f (t0 ++ r) hc0 hok2 h
    · -- the entry loop of a dictionary, truncated
      cases entries with
      | nil =>
        rw [show entriesBytes [] ++ [101] = [101] by simp [entriesBytes]] at hpre hne
        have hq : q = [] := by
          cases q with
          | nil => rfl
          | cons c t =>
            obtain ⟨hc, ht⟩ := List.cons_prefix_cons.mp hpre
            have ht2 : t = [] := List.prefix_nil.mp ht
            exact absurd (by rw [hc, ht2]) hne
        subst hq
        left
        simp [unmarshalDict]
      | cons p0 es =>
        obtain ⟨k, w⟩ := p0
        have hpwf := hwf (k, w) (by simp)
        have hwfw : wfb w = true := hpwf.1
        have hklen : k.length ≤ maxAlloc := hpwf.2
        obtain ⟨c0, t0, hct, hc1, hc2⟩ := marshalString_head k
        have hmlen := marshalString_length_ge k
        have hwlen := encB_length_pos hwfw
        have heb : entriesBytes ((k, w) :: es) ++ [101]
            = marshalString k ++ (encB w ++ (entriesBytes es ++ [101])) := by
          simp [entriesBytes]
        rw [heb] at hpre hne
        rcases prefix_split hpre with ⟨h1, h2⟩ | ⟨r, hqr, hr⟩
        · -- truncation inside the key token
          cases q with
          | nil =>
            left
            simp [unmarshalDict]
          | cons c q2 =>
            have hc : c = c0 := by
              rw [hct] at h1
              exact (List.cons_prefix_cons.mp h1).1
            subst hc
            rcases unmarshalString_truncated hklen h1 h2 with h | h
            · left
              exact unmarshalDict_cons_err1 f acc q2 (by omega) h
            · right
              exact unmarshalDict_cons_err1 f acc q2 (by omega) h
        · -- key complete
          have hql : q.length = (marshalString k).length + r.length := by
            rw [hqr]
            simp
          rcases prefix_split hr with ⟨g1, g2⟩ | ⟨u, hru, hu⟩
          · -- truncation inside the entry's value
            have hq2 : q = c0 :: (t0 ++ r) := by
              rw [hqr, hct]
              simp
            have hkey2 : unmarshalString (c0 :: (t0 ++ r)) = .ok k r := by
              rw [show c0 :: (t0 ++ r) = marshalString k ++ r by rw [hct]; simp]
              exact unmarshalString_marshalString hklen r
            rw [hq2]
            rcases ih.1 w (encB w) r hwfw (marshalValue_ok hwfw) g1 g2
              (by omega) with h | h
            · left
              exact unmarshalDict_cons_err2 f acc (t0 ++ r) (by omega) hkey2 h
            · right
              exact unmarshalDict_cons_err2 f acc (t0 ++ r) (by omega) hkey2 h
          · -- entry complete, truncation in the remaining entries
            have hrl : r.length = (encB w).length + u.length := by
              rw [hru]
              simp
            have hune : u ≠ entriesBytes es ++ [101] := by
              intro hh
              apply hne
              rw [hqr, hru, hh]
            have hok : unmarshalValue f (encB w ++ u) = .ok (canon w) u :=
              (parse_marshal_all f).1 w (encB w) u hwfw (marshalValue_ok hwfw)
                (by omega)
            have hq2 : q = c0 :: (t0 ++ (encB w ++ u)) := by
              rw [hqr, hru, hct]
              simp
            have hkey2 : unmarshalString (c0 :: (t0 ++ (encB w ++ u)))
                = .ok k (encB w ++ u) := by
              rw [show c0 :: (t0 ++ (encB w ++ u)) = marshalString k ++ (encB w ++ u) by
                rw [hct]; simp]
              exact unmarshalString_marshalString hklen _
            rw [hq2]
            rcases ih.2.2 es (mapInsert k (canon w) acc) u
              (fun x hx => hwf x (by simp [hx])) hu hune (by omega) with h | h
            · left
              exact unmarshalDict_cons_err3 f acc (t0 ++ (encB w ++ u)) (by omega)
                hkey2 hok h
            · right
              exact unmarshalDict_cons_err3 f acc (t0 ++ (encB w ++ u)) (by omega)
                hkey2 hok h

/-! ### The canonical form is equivalent to the original value -/

theorem sizeOf_mem_items {items : List Value} {v : Value} (h : v ∈ items) :
    sizeOf v < sizeOf items := by
  induction items with
  | nil => simp at h
  | cons x xs ih =>
    rcases List.mem_cons.mp h with h1 | h1
    · subst h1
      simp
      omega
    · have := ih h1
      simp
      omega

theorem equivList_of_forall {items : List Value}
    (h : ∀ x ∈ items, Equiv (canon x) x) : EquivList (canonList items) items := by
  induction items with
  | nil =>
    simp only [canonList]
    exact EquivList.nil
  | cons x xs ih =>
    simp only [canonList]
    exact EquivList.cons (h x (by simp)) (ih fun y hy => h y (by simp [hy]))

theorem mapGet_map_canon (E : List (List Nat × Value)) (k0 : List Nat) :
    mapGet (E.map (fun p => (p.1, canon p.2))) k0 = (mapGet E k0).map canon := by
  induction E with
  | nil => simp [mapGet]
  | cons p es ih =>
    obtain ⟨k, v⟩ := p
    by_cases h : k = k0 <;> simp [mapGet, h, ih]

theorem mapGet_lookupEntries {ks : List (List Nat)} {pairs : List (List Nat × Value)}
    (hfound : ∀ k ∈ ks, ∃ w, mapGet pairs k = some w) (k0 : List Nat) :
    mapGet (lookupEntries ks pairs) k0
      = if k0 ∈ ks then mapGet pairs k0 else none := by
  induction ks with
  | nil => simp [lookupEntries, mapGet]
  | cons k ks ih =>
    obtain ⟨w, hw⟩ := hfound k (by simp)
    have ih2 := ih fun k2 hk2 => hfound k2 (by simp [hk2])
    simp only [lookupEntries, hw]
    by_cases h : k = k0
    · subst h
      simp [mapGet, hw]
    · have hne : ¬ k0 = k := fun hh => h hh.symm
      simp [mapGet, h, ih2, hne]

theorem equiv_canon_size : ∀ n : Nat, ∀ v : Value, sizeOf v ≤ n → wfb v = true →
    Equiv (canon v) v := by
  intro n
  induction n with
  | zero =>
    intro v hv _
    exfalso
    cases v <;> simp at hv
  | succ n ih =>
    intro v hv hwf
    cases v with
    | int m =>
      simp only [canon]
      exact Equiv.int m
    | str s =>
      simp only [canon]
      exact Equiv.str s
    | unsupported => simp [wfb] at hwf
    | list items =>
      simp only [wfb] at hwf
      simp only [canon]
      refine Equiv.list (equivList_of_forall fun x hx => ?_)
      have h1 := sizeOf_mem_items hx
      have h2 : sizeOf (Value.list items) = 1 + sizeOf items := by simp
      exact ih x (by omega) (wfbList_mem hwf hx)
    | dict pairs =>
      simp only [wfb, Bool.and_eq_true, decide_eq_true_eq] at hwf
      simp only [canon]
      refine Equiv.dict fun k0 => ?_
      have hfound : ∀ k ∈ sortKeys (pairs.map Prod.fst), ∃ w, mapGet pairs k = some w :=
        fun k hk => mapGet_isSome_of_mem (mem_sortKeys.mp hk)
      rw [canonDict_eq, mapGet_map_canon, mapGet_lookupEntries hfound]
      by_cases hk : k0 ∈ sortKeys (pairs.map Prod.fst)
      · rw [if_pos hk]
        obtain ⟨w, hw⟩ := mapGet_isSome_of_mem (mem_sortKeys.mp hk)
        rw [hw]
        have h1 := sizeOf_mapGet hw
        have h2 : sizeOf (Value.dict pairs) = 1 + sizeOf pairs := by simp
        exact EquivOpt.some (ih w (by omega) (wfbDict_mem hwf.2 (mapGet_mem hw)).2)
      · rw [if_neg hk]
        rw [mapGet_eq_none_iff.mpr (fun hmem => hk (mem_sortKeys.mpr hmem))]
        exact EquivOpt.none

theorem equiv_canon {v : Value} (h : wfb v = true) : Equiv (canon v) v :=
  equiv_canon_size (sizeOf v) v le_rfl h

/-! ### Canonically sorted values -/

mutual

/-- `wfb` strengthened with the canonical-form condition: every
dictionary's entries are already stored in strictly ascending byte-wise
key order (which also forces the keys to be unique). -/
def wfCanonb : Value → Bool
  | .int n => decide (-9223372036854775808 ≤ n) && decide (n ≤ 9223372036854775807)
  | .str s => decide (s.length ≤ maxAlloc)
  | .list items => wfCanonbList items
  | .dict pairs =>
      decide ((pairs.map Prod.fst).Pairwise (fun a b => bytesLe a b = true ∧ ¬ a = b))
        && wfCanonbDict pairs
  | .unsupported => false
termination_by v => sizeOf v
decreasing_by all_goals (simp
  <;> omega)

/-- Pointwise `wfCanonb` over list elements. -/
def wfCanonbList : List Value → Bool
  | [] => true
  | v :: vs => wfCanonb v && wfCanonbList vs
termination_by items => sizeOf items
decreasing_by all_goals (simp
  <;> omega)

/-- Pointwise key-length bound and `wfCanonb` over dictionary entries. -/
def wfCanonbDict : List (List Nat × Value) → Bool
  | [] => true
  | (k, v) :: ps => decide (k.length ≤ maxAlloc) && wfCanonb v && wfCanonbDict ps
termination_by ps => sizeOf ps
decreasing_by all_goals (simp
  <;> omega)

end

/-- A canonically encoded byte sequence, per the glossary of the spec:
the deterministic serialization of some well-formed value whose
dictionaries are already stored in ascending key order. -/
def Canonical (b : List Nat) : Prop :=
  ∃ v, wfCanonb v = true ∧ Marshal v = .ok b

theorem wfCanonbList_mem {items : List Value} (h : wfCanonbList items = true)
    {v : Value} (hv : v ∈ items) : wfCanonb v = true := by
  induction items with
  | nil => simp at hv
  | cons x xs ih =>
    simp only [wfCanonbList, Bool.and_eq_true] at h
    rcases List.mem_cons.mp hv with h1 | h1
    · rw [h1]
      exact h.1
    · exact ih h.2 h1

theorem wfCanonbDict_mem {ps : List (List Nat × Value)} (h : wfCanonbDict ps = true)
    {k : List Nat} {v : Value} (hv : (k, v) ∈ ps) :
    k.length ≤ maxAlloc ∧ wfCanonb v = true := by
  induction ps with
  | nil => simp at hv
  | cons p rest ih =>
    obtain ⟨k2, v2⟩ := p
    simp only [wfCanonbDict, Bool.and_eq_true, decide_eq_true_eq] at h
    rcases List.mem_cons.mp hv with h1 | h1
    · obtain ⟨hk, hv2⟩ := Prod.mk.injEq .. ▸ h1
      subst hk
      subst hv2
      exact ⟨h.1.1, h.1.2⟩
    · exact ih h.2 h1

theorem wfb_of_wfCanonb : ∀ n : Nat, ∀ v : Value, sizeOf v ≤ n →
    wfCanonb v = true → wfb v = true := by
  intro n
  induction n with
  | zero =>
    intro v hv _
    exfalso
    cases v <;> simp at hv
  | succ n ih =>
    intro v hv hwf
    cases v with
    | int m =>
      simp only [wfCanonb] at hwf
      simp only [wfb]
      exact hwf
    | str s =>
      simp only [wfCanonb] at hwf
      simp only [wfb]
      exact hwf
    | unsupported => simp [wfCanonb] at hwf
    | list items =>
      simp only [wfCanonb] at hwf
      simp only [wfb]
      have h2 : sizeOf (Value.list items) = 1 + sizeOf items := by simp
      clear h2
      induction items with
      | nil => simp [wfbList]
      | cons x xs ih2 =>
        simp only [wfCanonbList, Bool.and_eq_true] at hwf
        simp only [wfbList, Bool.and_eq_true]
        have hx : sizeOf x ≤ n := by
          have := sizeOf_mem_items (List.mem_cons_self x xs)
          simp at hv
          omega
        refine ⟨ih x hx hwf.1, ?_⟩
        exact ih2 (by simp at hv ⊢; omega) hwf.2
    | dict pairs =>
      simp only [wfCanonb, Bool.and_eq_true, decide_eq_true_eq] at hwf
      simp only [wfb, Bool.and_eq_true, decide_eq_true_eq]
      constructor
      · exact List.Pairwise.imp (fun h => h.2) hwf.1
      · have hd := hwf.2
        clear hwf
        induction pairs with
        | nil => simp [wfbDict]
        | cons p ps ih2 =>
          obtain ⟨k, v⟩ := p
          simp only [wfCanonbDict, Bool.and_eq_true, decide_eq_true_eq] at hd
          simp only [wfbDict, Bool.and_eq_true, decide_eq_true_eq]
          have hv2 : sizeOf v ≤ n := by
            simp at hv
            omega
          refine ⟨⟨hd.1.1, ih v hv2 hd.1.2⟩, ?_⟩
          exact ih2 (by simp at hv ⊢; omega) hd.2

theorem canonDict_cons_ne {ks : List (List Nat)} {k : List Nat} {v : Value}
    {ps : List (List Nat × Value)} (h : k ∉ ks) :
    canonDict ks ((k, v) :: ps) = canonDict ks ps := by
  induction ks with
  | nil => simp [canonDict]
  | cons k2 ks ih =>
    have hne : ¬ k = k2 := fun hh => h (by simp [hh])
    have htail : k ∉ ks := fun hh => h (by simp [hh])
    have hget : mapGet ((k, v) :: ps) k2 = mapGet ps k2 := by
      simp [mapGet, hne]
    simp only [canonDict]
    split
    next w hw =>
      rw [hget] at hw
      split
      next w2 hw2 =>
        rw [hw] at hw2
        injection hw2 with hww
        subst hww
        rw [ih htail]
      next hw2 => simp [hw] at hw2
    next hw =>
      rw [hget] at hw
      split
      next w2 hw2 => simp [hw] at hw2
      next hw2 => exact ih htail

theorem canon_id : ∀ n : Nat, ∀ v : Value, sizeOf v ≤ n →
    wfCanonb v = true → canon v = v := by
  intro n
  induction n with
  | zero =>
    intro v hv _
    exfalso
    cases v <;> simp at hv
  | succ n ih =>
    intro v hv hwf
    cases v with
    | int m => simp [canon]
    | str s => simp [canon]
    | unsupported => simp [wfCanonb] at hwf
    | list items =>
      simp only [wfCanonb] at hwf
      simp only [canon, Value.list.injEq]
      induction items with
      | nil => simp [canonList]
      | cons x xs ih2 =>
        simp only [wfCanonbList, Bool.and_eq_true] at hwf
        simp only [canonList]
        have hx : sizeOf x ≤ n := by
          simp at hv
          omega
        rw [ih x hx hwf.1, ih2 (by simp at hv ⊢; omega) hwf.2]
    | dict pairs =>
      simp only [wfCanonb, Bool.and_eq_true, decide_eq_true_eq] at hwf
      simp only [canon, Value.dict.injEq]
      have hsorted : (pairs.map Prod.fst).Pairwise (fun a b => bytesLe a b = true) :=
        List.Pairwise.imp (fun h => h.1) hwf.1
      have hnd : (pairs.map Prod.fst).Nodup := List.Pairwise.imp (fun h => h.2) hwf.1
      rw [sortKeys_of_sorted hsorted]
      have hd := hwf.2
      clear hwf hsorted
      induction pairs with
      | nil => simp [canonDict]
      | cons p ps ih2 =>
        obtain ⟨k, v⟩ := p
        simp only [wfCanonbDict, Bool.and_eq_true, decide_eq_true_eq] at hd
        simp only [List.map_cons, List.nodup_cons] at hnd
        have hknotin : k ∉ ps.map Prod.fst := hnd.1
        simp only [List.map_cons, canonDict]
        split
        next w hw =>
          simp only [mapGet, if_pos rfl] at hw
          injection hw with hww
          subst hww
          have hv2 : sizeOf v ≤ n := by
            simp at hv
            omega
          rw [ih v hv2 hd.1.2, canonDict_cons_ne hknotin]
          rw [ih2 (by simp at hv ⊢; omega) hnd.2 hd.2]
        next hw => simp [mapGet] at hw

/-! ### Lookup in a decoded dictionary: the last binding wins -/

theorem mapGet_foldl_insert (entries : List (List Nat × Value))
    (acc : List (List Nat × Value)) (k0 : List Nat) :
    mapGet (entries.foldl (fun a p => mapInsert p.1 (canon p.2) a) acc) k0
      = (match entries.reverse.find? (fun p => p.1 == k0) with
        | some p => some (canon p.2)
        | none => mapGet acc k0) := by
  induction entries generalizing acc with
  | nil => simp
  | cons p es ih =>
    simp only [List.foldl_cons, List.reverse_cons, ih]
    rw [List.find?_append]
    cases hfind : es.reverse.find? (fun q => q.1 == k0) with
    | some q => simp [hfind]
    | none =>
      simp only [hfind, Option.none_or]
      by_cases hp : p.1 = k0
      · simp [hp, mapGet_mapInsert]
      · simp [hp, mapGet_mapInsert]

theorem marshalDictEntries_cons_some {k : List Nat} {dict : List (List Nat × Value)}
    {v : Value} (hv : mapGet dict k = some v) (ks : List (List Nat)) :
    marshalDictEntries (k :: ks) dict
      = marshalString k ++ (match marshalValue v with
        | .ok bs => bs ++ marshalDictEntries ks dict
        | .error _ => []) := by
  simp only [marshalDictEntries]
  congr 1
  split
  next w hw =>
    rw [hv] at hw
    injection hw with h
    subst h
    rfl
  next hw =>
    rw [hv] at hw
    simp at hw

theorem marshalDictEntries_cons_none {k : List Nat} {dict : List (List Nat × Value)}
    (hv : mapGet dict k = none) (ks : List (List Nat)) :
    marshalDictEntries (k :: ks) dict = marshalString k ++ [] := by
  simp only [marshalDictEntries]
  congr 1
  split
  next w hw =>
    rw [hv] at hw
    simp at hw
  next hw => rfl

theorem marshalDictEntries_congr {d1 d2 : List (List Nat × Value)}
    (hget : ∀ k, mapGet d1 k = mapGet d2 k) (ks : List (List Nat)) :
    marshalDictEntries ks d1 = marshalDictEntries ks d2 := by
  induction ks with
  | nil => simp [marshalDictEntries]
  | cons k ks ih =>
    cases hk : mapGet d1 k with
    | some v =>
      have hk2 : mapGet d2 k = some v := by rw [← hget k, hk]
      rw [marshalDictEntries_cons_some hk, marshalDictEntries_cons_some hk2, ih]
    | none =>
      have hk2 : mapGet d2 k = none := by rw [← hget k, hk]
      rw [marshalDictEntries_cons_none hk, marshalDictEntries_cons_none hk2]

/-- The byte-wise encoding of an n-deep nest of singleton lists:
one opening byte 108 and one closing byte 101 per level. -/
def nestV : Nat → Value
  | 0 => .list []
  | n + 1 => .list [nestV n]

/-! ### The claims -/

/-- Claim C1: for every Dictionary value, encode emits its entries in
strictly ascending byte-wise lexicographic order of their keys,
independent of insertion order; hence two logically equal dictionaries
(same key/value associations, modelled as association lists that are
permutations of each other with unique keys) serialize to identical
byte sequences, and the emitted key sequence is strictly ascending. -/
theorem c1_dict_sorted_deterministic (d1 d2 : List (List Nat × Value))
    (hperm : d1.Perm d2) (hnd : (d1.map Prod.fst).Nodup) :
    Marshal (Value.dict d1) = Marshal (Value.dict d2) ∧
    (sortKeys (d1.map Prod.fst)).Pairwise (fun a b => bytesLe a b = true ∧ ¬ a = b) := by
  constructor
  · have hkeys : sortKeys (d1.map Prod.fst) = sortKeys (d2.map Prod.fst) :=
      sortKeys_eq_of_perm (hperm.map Prod.fst)
    have hget : ∀ k, mapGet d1 k = mapGet d2 k := mapGet_of_perm hperm hnd
    simp only [Marshal, marshalValue, marshalDict]
    rw [hkeys, marshalDictEntries_congr hget]
  · have h1 := sortKeys_sorted (d1.map Prod.fst)
    have h2 : (sortKeys (d1.map Prod.fst)).Nodup := (sortKeys_perm _).symm.nodup hnd
    exact h1.and h2

/-- Witness for claim C1: the spec's own example, the dictionary with
spam ↦ eggs and cow ↦ moo inserted in the two possible orders. -/
theorem c1_dict_sorted_deterministic_witness :
    ([([115, 112, 97, 109], Value.str [101, 103, 103, 115]),
      ([99, 111, 119], Value.str [109, 111, 111])]).Perm
      [([99, 111, 119], Value.str [109, 111, 111]),
       ([115, 112, 97, 109], Value.str [101, 103, 103, 115])] ∧
    (([([115, 112, 97, 109], Value.str [101, 103, 103, 115]),
       ([99, 111, 119], Value.str [109, 111, 111])]).map Prod.fst).Nodup ∧
    (Marshal (Value.dict [([115, 112, 97, 109], Value.str [101, 103, 103, 115]),
        ([99, 111, 119], Value.str [109, 111, 111])])
      = Marshal (Value.dict [([99, 111, 119], Value.str [109, 111, 111]),
        ([115, 112, 97, 109], Value.str [101, 103, 103, 115])]) ∧
     (sortKeys (([([115, 112, 97, 109], Value.str [101, 103, 103, 115]),
       ([99, 111, 119], Value.str [109, 111, 111])]).map Prod.fst)).Pairwise
        (fun a b => bytesLe a b = true ∧ ¬ a = b)) := by
  have hperm : ([([115, 112, 97, 109], Value.str [101, 103, 103, 115]),
      ([99, 111, 119], Value.str [109, 111, 111])]).Perm
      [([99, 111, 119], Value.str [109, 111, 111]),
       ([115, 112, 97, 109], Value.str [101, 103, 103, 115])] :=
    List.Perm.swap ([99, 111, 119], Value.str [109, 111, 111])
      ([115, 112, 97, 109], Value.str [101, 103, 103, 115]) []
  have hnd : (([([115, 112, 97, 109], Value.str [101, 103, 103, 115]),
      ([99, 111, 119], Value.str [109, 111, 111])]).map Prod.fst).Nodup := by
    decide
  exact ⟨hperm, hnd, c1_dict_sorted_deterministic _ _ hperm hnd⟩

/-- Claim C2: for every Value tree built from the four variants, with
unique dictionary keys at every nesting level (and within the Go value
domain, see `wfb`), decoding the result of encoding it succeeds and
yields a Value equal to the original up to dictionary entry order. -/
theorem c2_decode_encode_roundtrip (v : Value) (hwf : wfb v = true) :
    ∃ b w, Marshal v = .ok b ∧ Unmarshal b = .ok w ∧ Equiv w v := by
  have henc := marshalValue_ok hwf
  refine ⟨encB v, canon v, ?_, ?_, equiv_canon hwf⟩
  · simp [Marshal, henc]
  · have h := parse_marshal v (encB v) [] (2 * (encB v).length + 2) hwf henc (by omega)
    simp only [List.append_nil] at h
    simp [Unmarshal, h]

/-- Witness for claim C2: a list holding an integer and a byte string
round-trips. -/
theorem c2_decode_encode_roundtrip_witness :
    wfb (Value.list [Value.int 3, Value.str [97, 98]]) = true ∧
    ∃ b w, Marshal (Value.list [Value.int 3, Value.str [97, 98]]) = .ok b ∧
      Unmarshal b = .ok w ∧ Equiv w (Value.list [Value.int 3, Value.str [97, 98]]) := by
  have hwf : wfb (Value.list [Value.int 3, Value.str [97, 98]]) = true := by
    simp only [wfb, wfbList]
    decide
  exact ⟨hwf, c2_decode_encode_roundtrip _ hwf⟩

/-- Claim C3: every canonically encoded byte sequence (the serialization
of a well-formed value whose dictionaries are already in ascending key
order, see `Canonical`) decodes to a value that re-encodes to exactly
the original bytes. -/
theorem c3_canonical_bytes_roundtrip (b : List Nat) (hc : Canonical b) :
    ∃ w, Unmarshal b = .ok w ∧ Marshal w = .ok b := by
  obtain ⟨v, hwfc, hmar⟩ := hc
  have hwf : wfb v = true := wfb_of_wfCanonb (sizeOf v) v le_rfl hwfc
  have hcanon : canon v = v := canon_id (sizeOf v) v le_rfl hwfc
  have h0 := marshalValue_ok hwf
  have hbe : encB v = b := by
    simp [Marshal, h0] at hmar
    exact hmar
  have henc : marshalValue v = .ok b := by
    rw [h0, hbe]
  refine ⟨v, ?_, hmar⟩
  have h := parse_marshal v b [] (2 * b.length + 2) hwf henc (by omega)
  simp only [List.append_nil, hcanon] at h
  simp [Unmarshal, h]

/-- Witness for claim C3: the canonical bytes of the integer 3. -/
theorem c3_canonical_bytes_roundtrip_witness :
    Canonical [105, 51, 101] ∧
    ∃ w, Unmarshal [105, 51, 101] = .ok w ∧ Marshal w = .ok [105, 51, 101] := by
  have hc : Canonical [105, 51, 101] := by
    refine ⟨Value.int 3, ?_, ?_⟩
    · simp only [wfCanonb]
      decide
    · simp [Marshal, marshalValue, marshalInt, itoa, natToDigits, natToDigitsCore]
  exact ⟨hc, c3_canonical_bytes_roundtrip _ hc⟩

/-- Counterexample to claim C4 as stated: decoding i03e does not fail
with an integer-syntax error; it succeeds with Integer 3, because the
digit run is handed to Go strconv.Atoi, which accepts leading zeros. -/
theorem c4_counterexample : Unmarshal [105, 48, 51, 101] = .ok (.int 3) := rfl

/-- Claim C4 amended: of the three inputs only ie (empty digit run)
fails, with the "invalid integer value" syntax error; i03e decodes to
Integer 3 and i-0e decodes to Integer 0, since strconv.Atoi accepts
leading zeros and negative zero, so zero has several accepted
representations. -/
theorem c4_amended :
    Unmarshal [105, 101] = .err (.invalidInteger []) ∧
    (GoErr.invalidInteger []).isSyntaxError = true ∧
    Unmarshal [105, 48, 51, 101] = .ok (.int 3) ∧
    Unmarshal [105, 45, 48, 101] = .ok (.int 0) :=
  ⟨rfl, rfl, rfl, rfl⟩

/-- Claim C5, the failing input: decoding -1:x does not return an
error; the length prefix -1 passes strconv.Atoi, and the Go code then
calls make with a negative length, which panics at runtime
(makeslice: len out of range). -/
theorem c5_negative_length_panics :
    Unmarshal [45, 49, 58, 120] = .panicked (-1) := rfl

/-- Counterexample to claim C6 as stated: the code has no
TruncatedInput/UnterminatedContainer distinction.  The truncated
string 4: (declared length 4, zero payload bytes present) fails with
io.EOF, the very same error the unterminated container l4:spam fails
with, not a distinct string-truncation error; and the truncated string
8999999999999999999:x, whose valid declared length exceeds the runtime
allocation bound, panics in make instead of returning any truncation
error. -/
theorem c6_counterexample :
    Unmarshal [52, 58] = .err .eof ∧
    Unmarshal [108, 52, 58, 115, 112, 97, 109] = .err .eof ∧
    Unmarshal [56, 57, 57, 57, 57, 57, 57, 57, 57, 57, 57, 57, 57, 57, 57, 57, 57, 57, 57,
      58, 120] = .panicked 8999999999999999999 :=
  ⟨rfl, rfl, rfl⟩

/-- Claim C6 amended: the decoder signals truncation with the two raw
reader errors rather than with dedicated kinds.  Decoding any proper
prefix of the encoding of any well-formed value fails with io.EOF or
io.ErrUnexpectedEOF, both truncation-kind errors, distinct in kind
from the numeral syntax errors.  The two errors do not line up with
the claimed TruncatedInput/UnterminatedContainer split: a truncated
string payload gives io.ErrUnexpectedEOF only when at least one
payload byte is present (4:sp), while a truncated payload with no byte
present (4:) gives io.EOF, the same error as end of input before a
container terminator (l4:spam); and a declared length above the
runtime allocation bound panics instead (see the counterexample). -/
theorem c6_amended (v : Value) (p : List Nat) (hwf : wfb v = true)
    (hpre : p <+: encB v) (hne : p ≠ encB v) :
    (Unmarshal p = .err .eof ∨ Unmarshal p = .err .unexpectedEOF) ∧
    GoErr.eof.isTruncation = true ∧
    GoErr.unexpectedEOF.isTruncation = true ∧
    GoErr.eof.isSyntaxError = false ∧
    GoErr.unexpectedEOF.isSyntaxError = false ∧
    Unmarshal [52, 58, 115, 112] = .err .unexpectedEOF ∧
    Unmarshal [52, 58] = .err .eof ∧
    Unmarshal [108, 52, 58, 115, 112, 97, 109] = .err .eof := by
  refine ⟨?_, rfl, rfl, rfl, rfl, rfl, rfl, rfl⟩
  have h := (truncation_all (2 * p.length + 2)).1 v (encB v) p hwf
    (marshalValue_ok hwf) hpre hne (by omega)
  rcases h with h | h
  · left
    simp only [Unmarshal]
    rw [h]
  · right
    simp only [Unmarshal]
    rw [h]

/-- Witness for the amended claim C6: the spec's own truncation example
4:sp, a proper prefix of the encoding of the string spam. -/
theorem c6_amended_witness :
    (wfb (Value.str [115, 112, 97, 109]) = true ∧
     [52, 58, 115, 112] <+: encB (Value.str [115, 112, 97, 109]) ∧
     [52, 58, 115, 112] ≠ encB (Value.str [115, 112, 97, 109])) ∧
    ((Unmarshal [52, 58, 115, 112] = .err .eof ∨
      Unmarshal [52, 58, 115, 112] = .err .unexpectedEOF) ∧
     GoErr.eof.isTruncation = true ∧
     GoErr.unexpectedEOF.isTruncation = true ∧
     GoErr.eof.isSyntaxError = false ∧
     GoErr.unexpectedEOF.isSyntaxError = false ∧
     Unmarshal [52, 58, 115, 112] = .err .unexpectedEOF ∧
     Unmarshal [52, 58] = .err .eof ∧
     Unmarshal [108, 52, 58, 115, 112, 97, 109] = .err .eof) := by
  have hb : encB (Value.str [115, 112, 97, 109]) = [52, 58, 115, 112, 97, 109] := by
    simp [encB, marshalValue, marshalString, itoa, natToDigits, natToDigitsCore]
  have hwf : wfb (Value.str [115, 112, 97, 109]) = true := by
    simp only [wfb]
    decide
  have hpre : [52, 58, 115, 112] <+: encB (Value.str [115, 112, 97, 109]) := by
    rw [hb]
    exact ⟨[97, 109], rfl⟩
  have hne : [52, 58, 115, 112] ≠ encB (Value.str [115, 112, 97, 109]) := by
    rw [hb]
    decide
  exact ⟨⟨hwf, hpre, hne⟩, c6_amended _ _ hwf hpre hne⟩

/-- Claim C7, the divergence: the decoder recurses once per nesting
level with no depth guard and no recursion-limit error kind exists;
nesting of every depth n decodes successfully (so no bound, after
which a RecursionLimitExceeded error would be returned, exists). -/
theorem c7_no_recursion_limit (n : Nat) :
    Unmarshal (List.replicate (n + 1) 108 ++ List.replicate (n + 1) 101)
      = .ok (nestV n) := by
  have hwf : ∀ m, wfb (nestV m) = true := by
    intro m
    induction m with
    | zero => simp [nestV, wfb, wfbList]
    | succ m ih => simp [nestV, wfb, wfbList, ih]
  have hcanon : ∀ m, canon (nestV m) = nestV m := by
    intro m
    induction m with
    | zero => simp [nestV, canon, canonList]
    | succ m ih => simp [nestV, canon, canonList, ih]
  have henc : ∀ m, marshalValue (nestV m)
      = .ok (List.replicate (m + 1) 108 ++ List.replicate (m + 1) 101) := by
    intro m
    induction m with
    | zero => simp [nestV, marshalValue, marshalList, marshalListItems, List.replicate]
    | succ m ih =>
      simp only [nestV, marshalValue, marshalList, marshalListItems, ih,
        Except.ok.injEq]
      rw [show List.replicate (m + 1 + 1) 108 = 108 :: List.replicate (m + 1) 108 by
        simp [List.replicate_succ]]
      rw [List.replicate_succ' (m + 1) 101]
      simp
  have h := parse_marshal (nestV n)
    (List.replicate (n + 1) 108 ++ List.replicate (n + 1) 101) []
    (2 * (List.replicate (n + 1) 108 ++ List.replicate (n + 1) 101).length + 2)
    (hwf n) (henc n) (by omega)
  simp only [List.append_nil, hcanon n] at h
  simp only [Unmarshal]
  rw [h]

/-- Claim C8, the divergence: a value outside the closed variant set is
rejected only at top level; inside a list or a dictionary the child
error is silently discarded (the Go loops return without propagating
it), so encoding succeeds with truncated output: the list case emits
only the opening byte 108, and the dictionary case emits the opening
byte 100 and the dangling key, in both cases with no terminator and no
error. -/
theorem c8_nested_unsupported_swallowed :
    Marshal .unsupported = .error .unsupportedType ∧
    Marshal (.list [.unsupported]) = .ok [108] ∧
    Marshal (.dict [([97], .unsupported)]) = .ok [100, 49, 58, 97] := by
  refine ⟨by simp [Marshal, marshalValue], ?_, ?_⟩
  · simp [Marshal, marshalValue, marshalList, marshalListItems]
  · simp [Marshal, marshalValue, marshalDict, marshalDictEntries, sortKeys, insertKey,
      mapGet, marshalString, itoa, natToDigits, natToDigitsCore]

/-- Claim C9: an encoded dictionary body whose entry sequence repeats a
key decodes without error, and the resulting dictionary maps every key
to the value of its last occurrence in the input (earlier bindings are
overwritten by the later map assignment). -/
theorem c9_duplicate_keys_last_wins (entries : List (List Nat × Value)) (k0 : List Nat)
    (hwf : ∀ p ∈ entries, wfb p.2 = true ∧ p.1.length ≤ maxAlloc) :
    ∃ d, Unmarshal (100 :: (entriesBytes entries ++ [101])) = .ok (.dict d) ∧
      mapGet d k0 = Option.map (fun p => canon p.2)
        (entries.reverse.find? (fun p => p.1 == k0)) := by
  have hfuel : 2 * (100 :: (entriesBytes entries ++ [101])).length + 2
      = (2 * (entriesBytes entries).length + 5) + 1 := by
    simp
    omega
  have hparse := (parse_marshal_all (2 * (entriesBytes entries).length + 5)).2.2
    entries [] [] hwf (by omega)
  refine ⟨entries.foldl (fun a p => mapInsert p.1 (canon p.2) a) [], ?_, ?_⟩
  · have hok : unmarshalValue (2 * (100 :: (entriesBytes entries ++ [101])).length + 2)
        (100 :: (entriesBytes entries ++ [101]))
        = .ok (.dict (entries.foldl (fun a p => mapInsert p.1 (canon p.2) a) [])) [] := by
      rw [hfuel]
      exact unmarshalValue_dict_ok _ _ hparse
    simp only [Unmarshal]
    rw [hok]
  · rw [mapGet_foldl_insert]
    cases entries.reverse.find? (fun p => p.1 == k0) <;> simp [mapGet]

/-- Witness for claim C9: the body with the key "a" bound first to 1
and then to 2; the decoded dictionary maps "a" to 2. -/
theorem c9_duplicate_keys_last_wins_witness :
    (∀ p ∈ [([97], Value.int 1), ([97], Value.int 2)],
      wfb p.2 = true ∧ p.1.length ≤ maxAlloc) ∧
    ∃ d, Unmarshal (100 :: (entriesBytes [([97], Value.int 1), ([97], Value.int 2)]
        ++ [101])) = .ok (.dict d) ∧
      mapGet d [97] = Option.map (fun p => canon p.2)
        (([([97], Value.int 1), ([97], Value.int 2)]).reverse.find?
          (fun p => p.1 == [97])) := by
  have hwf : ∀ p ∈ [([97], Value.int 1), ([97], Value.int 2)],
      wfb p.2 = true ∧ p.1.length ≤ maxAlloc := by
    intro p hp
    simp only [List.mem_cons, List.not_mem_nil, or_false] at hp
    rcases hp with rfl | rfl
    · exact ⟨by simp only [wfb]; decide, by decide⟩
    · exact ⟨by simp only [wfb]; decide, by decide⟩
  exact ⟨hwf, c9_duplicate_keys_last_wins _ _ hwf⟩

/-- Claim C10: when the input begins with one complete well-formed
value, Unmarshal returns that value (here: the canonical form of the
value whose encoding the input starts with) and no error, whatever
bytes follow; the trailing bytes are silently ignored, and the return
type URes carries no count of consumed bytes. -/
theorem c10_trailing_bytes_ignored (v : Value) (b trailing : List Nat)
    (hwf : wfb v = true) (hb : Marshal v = .ok b) :
    Unmarshal (b ++ trailing) = .ok (canon v) := by
  have h0 := marshalValue_ok hwf
  have hbe : encB v = b := by
    simp [Marshal, h0] at hb
    exact hb
  subst hbe
  have h := parse_marshal v (encB v) trailing (2 * ((encB v) ++ trailing).length + 2)
    hwf h0 (by simp only [List.length_append]; omega)
  simp only [Unmarshal]
  rw [h]

/-- Witness for claim C10: i3e followed by the junk bytes xyz decodes
to Integer 3. -/
theorem c10_trailing_bytes_ignored_witness :
    wfb (Value.int 3) = true ∧ Marshal (Value.int 3) = .ok [105, 51, 101] ∧
    Unmarshal ([105, 51, 101] ++ [120, 121, 122]) = .ok (canon (Value.int 3)) := by
  have h1 : wfb (Value.int 3) = true := by
    simp only [wfb]
    decide
  have h2 : Marshal (Value.int 3) = .ok [105, 51, 101] := by
    simp [Marshal, marshalValue, marshalInt, itoa, natToDigits, natToDigitsCore]
  exact ⟨h1, h2, c10_trailing_bytes_ignored _ _ _ h1 h2⟩

end BencodeProof
